import Mathlib

/-!
# Verification of the skip-list container (src/primer/skiplist.cpp)

This file embeds the skip list of `src/primer/skiplist.cpp` in Lean.
Nodes live in an arena (`List (SkipNode K)`); a pointer is an `Option Nat`
(`none` models `nullptr`, `some i` a `shared_ptr` to the node at arena
index `i`).  Index `0` always holds the sentinel header node.  Operations
are written in the `Except String` monad so that the out-of-range faults
thrown by `SkipNode::Next` / `SkipNode::SetNext`, null dereferences and
non-termination (fuel exhaustion) are observable outcomes.  The key type
is any linear order, matching the instantiations `SkipList<int>`,
`SkipList<std::string>`, `SkipList<int, std::greater<>>` of the source
(each of which is a total order on its key type).
-/

namespace SkipVerify

/-- A skip-list node: one key and the per-level array `links_` of forward
references.  Mirrors `SkipList::SkipNode`. -/
structure SkipNode (K : Type) where
  key : K
  links : List (Option Nat)
deriving DecidableEq

/-- `SkipNode::Height`: the number of levels the node participates in
(`links_.size()`). -/
def SkipNode.Height {K : Type} (n : SkipNode K) : Nat := n.links.length

/-- `SkipNode::Next`: the forward reference at `level`, throwing the
out-of-range fault when `level >= links_.size()`. -/
def SkipNode.Next {K : Type} (n : SkipNode K) (level : Nat) : Except String (Option Nat) :=
  if level ≥ n.links.length then
    Except.error ("level " ++ toString level ++ " out of range")
  else
    Except.ok (n.links.getD level none)

/-- `SkipNode::SetNext`: install a forward reference at `level`, throwing the
out-of-range fault when `level >= links_.size()`. -/
def SkipNode.SetNext {K : Type} (n : SkipNode K) (level : Nat) (p : Option Nat) :
    Except String (SkipNode K) :=
  if level ≥ n.links.length then
    Except.error ("level " ++ toString level ++ " out of range")
  else
    Except.ok { n with links := n.links.set level p }

/-- Dereference an arena pointer.  In C++ a dangling `shared_ptr` cannot
occur; an out-of-arena index is modelled as an error, proved unreachable. -/
def nodeAt {K : Type} (heap : List (SkipNode K)) (p : Nat) : Except String (SkipNode K) :=
  match heap[p]? with
  | some n => Except.ok n
  | none => Except.error "invalid pointer"

/-- The container state: maximum height, the node arena (index 0 is the
sentinel header), the live count `size_`, and the sampler's random stream
`rng_` (a fixed infinite stream together with the index of the next draw,
modelling the seeded `std::mt19937`). -/
structure SkipState (K : Type) where
  maxHeight : Nat
  heap : List (SkipNode K)
  size : Nat
  rng : Nat → Nat
  rngIdx : Nat

/-- Modelled from the spec: the constructor (declared in the repository's
`skiplist.h`, which is not among the given sources) creates a keyless
sentinel header whose forward-reference array has `MaxHeight` slots, sets
the live count to zero and seeds the height sampler.  The header's key
slot is never read by any operation; it is filled with `default`. -/
def mkSkipList (K : Type) [Inhabited K] (maxHeight : Nat) (rng : Nat → Nat) : SkipState K :=
  { maxHeight := maxHeight
    heap := [⟨default, List.replicate maxHeight none⟩]
    size := 0
    rng := rng
    rngIdx := 0 }

/-- `SkipList::Size`. -/
def SkipState.Size {K : Type} (s : SkipState K) : Nat := s.size

/-- `SkipList::Empty`. -/
def SkipState.Empty {K : Type} (s : SkipState K) : Bool := s.size == 0

/-- The loop of `SkipList::RandomHeight`: while `height < MaxHeight` and the
next draw is divisible by the branching factor 4, extend the height by one.
Returns the height together with the index of the next unused draw. -/
def randomHeightAux (maxHeight : Nat) (rng : Nat → Nat) (idx height : Nat) : Nat × Nat :=
  if height < maxHeight then
    if rng idx % 4 == 0 then randomHeightAux maxHeight rng (idx + 1) (height + 1)
    else (height, idx + 1)
  else (height, idx)
termination_by maxHeight - height

/-- `SkipList::RandomHeight`: start at height 1 and run the trial loop. -/
def RandomHeight (maxHeight : Nat) (rng : Nat → Nat) (idx : Nat) : Nat × Nat :=
  randomHeightAux maxHeight rng idx 1

/-- The inner `while (true)` loop of `SkipList::Contains` at level `l`:
advance while the next node's key is less than `key`; stop on null or on a
key not less than `key`; report a match when neither key compares less than
the other.  Result `(true, _)` means `return true` was executed, and
`(false, cur')` means the loop broke with current pointer `cur'`.  The
fuel argument dominates the number of advances and is proved sufficient
for well-formed states. -/
def containsLevel {K : Type} [LinearOrder K] (heap : List (SkipNode K)) (key : K) (l : Nat) :
    Nat → Nat → Except String (Bool × Nat)
  | 0, _ => Except.error "fuel exhausted"
  | fuel + 1, cur => do
    let cn ← nodeAt heap cur
    match ← cn.Next l with
    | none => Except.ok (false, cur)
    | some nxt => do
      let nn ← nodeAt heap nxt
      if key < nn.key then Except.ok (false, cur)
      else if ¬ nn.key < key then Except.ok (true, cur)
      else containsLevel heap key l fuel nxt

/-- The outer `for` loop of `SkipList::Contains`, descending from level
`i - 1` down to level 0, starting at arena pointer `cur` (the header on
the initial call). -/
def containsFrom {K : Type} [LinearOrder K] (heap : List (SkipNode K)) (key : K) :
    Nat → Nat → Except String Bool
  | 0, _ => Except.ok false
  | i + 1, cur => do
    let r ← containsLevel heap key i heap.length cur
    if r.1 then Except.ok true else containsFrom heap key i r.2

/-- `SkipList::Contains`. -/
def SkipState.Contains {K : Type} [LinearOrder K] (s : SkipState K) (key : K) :
    Except String Bool :=
  containsFrom s.heap key s.maxHeight 0

/-- A recorded `SetNext` call: which node's forward reference was written,
at which level, and to which pointer value.  Used to state properties of
the order of pointer installations during a splice. -/
structure SetEv where
  node : Nat
  level : Nat
  target : Option Nat
deriving DecidableEq

/-- The inner `while (true)` loop of `SkipList::Insert`'s search phase at
level `l`: advance while the next node is non-null and `key` is not less
than its key. -/
def insertLevel {K : Type} [LinearOrder K] (heap : List (SkipNode K)) (key : K) (l : Nat) :
    Nat → Nat → Except String Nat
  | 0, _ => Except.error "fuel exhausted"
  | fuel + 1, cur => do
    let cn ← nodeAt heap cur
    match ← cn.Next l with
    | none => Except.ok cur
    | some nxt => do
      let nn ← nodeAt heap nxt
      if key < nn.key then Except.ok cur
      else insertLevel heap key l fuel nxt

/-- The outer search loop of `SkipList::Insert`, descending from level
`i - 1` to level 0 and building the predecessor stack `nodes` (head of the
list = top of the stack); a predecessor is pushed when the stack is empty
or it differs from the current top. -/
def insertScan {K : Type} [LinearOrder K] (heap : List (SkipNode K)) (key : K) :
    Nat → Nat → List Nat → Except String (List Nat)
  | 0, _, stack => Except.ok stack
  | i + 1, cur, stack => do
    let cur' ← insertLevel heap key i heap.length cur
    let stack' := if stack.head? = some cur' then stack else cur' :: stack
    insertScan heap key i cur' stack'

/-- The inner splice loop of `SkipList::Insert` for one popped predecessor
`nodeId`: while `level < min height (node.Height())`, read the
predecessor's forward reference, point the predecessor at the new node,
and point the new node at the old forward reference.  Returns the updated
heap, the recorded `SetNext` calls in execution order, and the next level. -/
def spliceInner {K : Type} (newId nodeId h : Nat) (heap : List (SkipNode K)) (level : Nat) :
    Except String (List (SkipNode K) × List SetEv × Nat) := do
  let nd ← nodeAt heap nodeId
  if level < min h nd.Height then do
    let nxt ← nd.Next level
    let nd' ← nd.SetNext level (some newId)
    let heap1 := heap.set nodeId nd'
    let newNd ← nodeAt heap1 newId
    let newNd' ← newNd.SetNext level nxt
    let heap2 := heap1.set newId newNd'
    let r ← spliceInner newId nodeId h heap2 (level + 1)
    Except.ok (r.1, SetEv.mk nodeId level (some newId) :: SetEv.mk newId level nxt :: r.2.1, r.2.2)
  else
    Except.ok (heap, [], level)
termination_by h - level
decreasing_by
  have : level < h := lt_of_lt_of_le (by assumption) (min_le_left _ _)
  omega

/-- The outer splice loop of `SkipList::Insert`: while `level < height`,
pop a predecessor from the stack and run the inner splice loop. -/
def spliceOuter {K : Type} (newId h : Nat) :
    List Nat → List (SkipNode K) → Nat → Except String (List (SkipNode K) × List SetEv)
  | [], heap, level =>
    if level < h then Except.error "stack underflow" else Except.ok (heap, [])
  | nodeId :: rest, heap, level =>
    if level < h then do
      let r ← spliceInner newId nodeId h heap level
      let r' ← spliceOuter newId h rest r.1 r.2.2
      Except.ok (r'.1, r.2.1 ++ r'.2)
    else Except.ok (heap, [])

/-- `SkipList::Insert`, instrumented to also return the `SetNext` calls
performed during the splice phase (in execution order): reject when
`Contains(key)` holds; otherwise scan to build the predecessor stack,
sample a height, allocate the node at the end of the arena, splice, and
increment the live count. -/
def insertRec {K : Type} [LinearOrder K] (s : SkipState K) (key : K) :
    Except String (Bool × SkipState K × List SetEv) := do
  if ← s.Contains key then Except.ok (false, s, [])
  else do
    let stack ← insertScan s.heap key s.maxHeight 0 []
    let hi := RandomHeight s.maxHeight s.rng s.rngIdx
    let newId := s.heap.length
    let heap0 := s.heap ++ [SkipNode.mk key (List.replicate hi.1 none)]
    let r ← spliceOuter newId hi.1 stack heap0 0
    Except.ok (true, { s with heap := r.1, size := s.size + 1, rngIdx := hi.2 }, r.2)

/-- `SkipList::Insert` as the caller sees it (the recorded splice events
discarded). -/
def SkipState.Insert {K : Type} [LinearOrder K] (s : SkipState K) (key : K) :
    Except String (Bool × SkipState K) :=
  (insertRec s key).map (fun r => (r.1, r.2.1))

/-- The inner `while (true)` loop of `SkipList::Erase`'s search phase at
level `l`, additionally carrying the `to_erase` pointer: break on null or
on a strictly greater key; advance on a strictly smaller key; on a match
record the node in `to_erase` and break. -/
def eraseLevel {K : Type} [LinearOrder K] (heap : List (SkipNode K)) (key : K) (l : Nat) :
    Nat → Nat → Option Nat → Except String (Nat × Option Nat)
  | 0, _, _ => Except.error "fuel exhausted"
  | fuel + 1, cur, te => do
    let cn ← nodeAt heap cur
    match ← cn.Next l with
    | none => Except.ok (cur, te)
    | some nxt => do
      let nn ← nodeAt heap nxt
      if key < nn.key then Except.ok (cur, te)
      else if nn.key < key then eraseLevel heap key l fuel nxt te
      else Except.ok (cur, some nxt)

/-- The outer search loop of `SkipList::Erase`, building the same
predecessor stack as `insertScan` while locating `to_erase`. -/
def eraseScan {K : Type} [LinearOrder K] (heap : List (SkipNode K)) (key : K) :
    Nat → Nat → Option Nat → List Nat → Except String (List Nat × Option Nat)
  | 0, _, te, stack => Except.ok (stack, te)
  | i + 1, cur, te, stack => do
    let r ← eraseLevel heap key i heap.length cur te
    let stack' := if stack.head? = some r.1 then stack else r.1 :: stack
    eraseScan heap key i r.1 r.2 stack'

/-- The inner unsplice loop of `SkipList::Erase` for one popped predecessor
`nodeId`: while `level < min height (node.Height())`, read the erased
node's forward reference, null it out, and install it as the
predecessor's forward reference. -/
def unspliceInner {K : Type} (teId nodeId h : Nat) (heap : List (SkipNode K)) (level : Nat) :
    Except String (List (SkipNode K) × Nat) := do
  let nd ← nodeAt heap nodeId
  if level < min h nd.Height then do
    let te ← nodeAt heap teId
    let nxt ← te.Next level
    let te' ← te.SetNext level none
    let heap1 := heap.set teId te'
    let nd1 ← nodeAt heap1 nodeId
    let nd1' ← nd1.SetNext level nxt
    let heap2 := heap1.set nodeId nd1'
    unspliceInner teId nodeId h heap2 (level + 1)
  else
    Except.ok (heap, level)
termination_by h - level
decreasing_by
  have : level < h := lt_of_lt_of_le (by assumption) (min_le_left _ _)
  omega

/-- The outer unsplice loop of `SkipList::Erase`: while `level < height`,
pop a predecessor from the stack and run the inner unsplice loop. -/
def unspliceOuter {K : Type} (teId h : Nat) :
    List Nat → List (SkipNode K) → Nat → Except String (List (SkipNode K))
  | [], heap, level =>
    if level < h then Except.error "stack underflow" else Except.ok heap
  | nodeId :: rest, heap, level =>
    if level < h then do
      let r ← unspliceInner teId nodeId h heap level
      unspliceOuter teId h rest r.1 r.2
    else Except.ok heap

/-- `SkipList::Erase`: return `false` when `Contains(key)` fails; otherwise
scan to locate the target and build the predecessor stack, unsplice the
target from every level it participates in, and decrement the live count.
The C++ code dereferences `to_erase` unconditionally after the scan; a
null `to_erase` is modelled as an error, proved unreachable. -/
def SkipState.Erase {K : Type} [LinearOrder K] (s : SkipState K) (key : K) :
    Except String (Bool × SkipState K) := do
  if ← s.Contains key then do
    let r ← eraseScan s.heap key s.maxHeight 0 none []
    match r.2 with
    | none => Except.error "null dereference"
    | some teId => do
      let teN ← nodeAt s.heap teId
      let heap1 ← unspliceOuter teId teN.Height r.1 s.heap 0
      Except.ok (true, { s with heap := heap1, size := s.size - 1 })
  else Except.ok (false, s)

/-- The inner loop of `SkipList::Drop` at level `l`: repeatedly move out of
the current node's `links_[l]` slot (leaving `nullptr` behind, which is
what `std::move` on a `shared_ptr` does) and advance to the old value. -/
def dropLevel {K : Type} (l : Nat) :
    Nat → List (SkipNode K) → Option Nat → Except String (List (SkipNode K))
  | _, heap, none => Except.ok heap
  | 0, _, some _ => Except.error "fuel exhausted"
  | fuel + 1, heap, some p => do
    let n ← nodeAt heap p
    let nxt := n.links.getD l none
    let n' := { n with links := n.links.set l none }
    dropLevel l fuel (heap.set p n') nxt

/-- `SkipList::Drop`: for each level `i` from 0 to `MaxHeight - 1`, move out
of the header's `links_[i]` slot and walk the chain, detaching one link at
a time.  `levels` counts the levels still to process, `i` is the current
level. -/
def dropLevels {K : Type} :
    Nat → Nat → List (SkipNode K) → Except String (List (SkipNode K))
  | 0, _, heap => Except.ok heap
  | levels + 1, i, heap => do
    let hd ← nodeAt heap 0
    let first := hd.links.getD i none
    let hd' := { hd with links := hd.links.set i none }
    let heap1 := heap.set 0 hd'
    let heap2 ← dropLevel i heap.length heap1 first
    dropLevels levels (i + 1) heap2

/-- `SkipList::Clear`: reset the live count to zero and run `Drop`. -/
def SkipState.Clear {K : Type} (s : SkipState K) : Except String (SkipState K) := do
  let heap' ← dropLevels s.maxHeight 0 s.heap
  Except.ok { s with size := 0, heap := heap' }

/-- A public mutating operation of the container. -/
inductive Op (K : Type) where
  | insert (key : K)
  | erase (key : K)
  | clear
deriving DecidableEq

/-- Run one public operation, keeping only the resulting state. -/
def runOp {K : Type} [LinearOrder K] (s : SkipState K) : Op K → Except String (SkipState K)
  | Op.insert k => (s.Insert k).map (fun r => r.2)
  | Op.erase k => (s.Erase k).map (fun r => r.2)
  | Op.clear => s.Clear

/-- Run a history of public operations from a given state. -/
def runOps {K : Type} [LinearOrder K] : SkipState K → List (Op K) → Except String (SkipState K)
  | s, [] => Except.ok s
  | s, op :: ops => do runOps (← runOp s op) ops

/-- A state is reachable when some history of public operations, run from a
freshly constructed container (any positive maximum height, any seed
stream), produces it without faulting. -/
def Reachable {K : Type} [LinearOrder K] [Inhabited K] (s : SkipState K) : Prop :=
  ∃ (mh : Nat) (rng : Nat → Nat) (ops : List (Op K)),
    1 ≤ mh ∧ runOps (mkSkipList K mh rng) ops = Except.ok s

/-! ## Abstraction: entries and per-level chains -/

/-- One live element as the abstraction sees it: its arena index, its key,
and its height. -/
structure Entry (K : Type) where
  id : Nat
  key : K
  ht : Nat
deriving DecidableEq

/-- `ChainSeg heap l p es q`: starting from pointer `p` and following the
level-`l` forward references, one visits exactly the entries `es` (whose
recorded keys and heights agree with the arena) and is left holding the
pointer `q`. -/
def ChainSeg {K : Type} (heap : List (SkipNode K)) (l : Nat) :
    Option Nat → List (Entry K) → Option Nat → Prop
  | p, [], q => p = q
  | p, e :: es, q => p = some e.id ∧ l < e.ht ∧
      ∃ n, heap[e.id]? = some n ∧ n.key = e.key ∧ n.links.length = e.ht ∧
        ChainSeg heap l (n.links.getD l none) es q

/-- The header's forward reference at level `l`. -/
def headerLink {K : Type} (heap : List (SkipNode K)) (l : Nat) : Option Nat :=
  match heap[0]? with
  | some n => n.links.getD l none
  | none => none

/-- The entries participating at level `l`. -/
def entriesAt {K : Type} (L : List (Entry K)) (l : Nat) : List (Entry K) :=
  L.filter fun e => decide (l < e.ht)

/-- Entries at level `l` with key strictly below `c`. -/
def belowAt {K : Type} [LinearOrder K] (L : List (Entry K)) (l : Nat) (c : K) :
    List (Entry K) :=
  L.filter fun e => decide (l < e.ht) && decide (e.key < c)

/-- Entries at level `l` with key at least `c`. -/
def fromKey {K : Type} [LinearOrder K] (L : List (Entry K)) (l : Nat) (c : K) :
    List (Entry K) :=
  L.filter fun e => decide (l < e.ht) && decide (c ≤ e.key)

/-- Entries at level `l` with key strictly above `c`. -/
def aboveAt {K : Type} [LinearOrder K] (L : List (Entry K)) (l : Nat) (c : K) :
    List (Entry K) :=
  L.filter fun e => decide (l < e.ht) && decide (c < e.key)

/-- The last node visited before descending past level `l` during a scan
for `key`: the entry holding it, or `none` when it is the header. -/
def predE {K : Type} [LinearOrder K] (L : List (Entry K)) (l : Nat) (key : K) :
    Option (Entry K) :=
  (belowAt L l key).getLast?

/-- The arena index of the scan predecessor at level `l` (0 = the header). -/
def predIdAt {K : Type} [LinearOrder K] (L : List (Entry K)) (l : Nat) (key : K) : Nat :=
  (predE L l key).elim 0 Entry.id

/-- The representation invariant: state `s` realises the sorted entry list
`L`.  Every level-`l` chain from the header visits exactly the entries of
height above `l`, in order. -/
structure Rep {K : Type} [LinearOrder K] (s : SkipState K) (L : List (Entry K)) : Prop where
  mh_pos : 1 ≤ s.maxHeight
  hdr : ∃ n, s.heap[0]? = some n ∧ n.links.length = s.maxHeight
  sorted : L.Pairwise fun a b => a.key < b.key
  nz : ∀ e ∈ L, e.id ≠ 0
  ht_le : ∀ e ∈ L, 1 ≤ e.ht ∧ e.ht ≤ s.maxHeight
  chains : ∀ l, l < s.maxHeight → ChainSeg s.heap l (headerLink s.heap l) (entriesAt L l) none
  sz : s.size = L.length

/-- The number of consecutive successful 1-in-4 trials drawn from the
stream starting at `idx`, capped at `bound`. -/
def trialStreak (rng : Nat → Nat) : Nat → Nat → Nat
  | _, 0 => 0
  | idx, bound + 1 =>
    if rng idx % 4 == 0 then trialStreak rng (idx + 1) bound + 1 else 0

/-- The forward reference of the node at arena index `p`, level `l`. -/
def linkOf {K : Type} (heap : List (SkipNode K)) (p : Nat) (l : Nat) : Option Nat :=
  match heap[p]? with
  | some n => n.links.getD l none
  | none => none

/-- The arena indices visited by following level-`l` forward references
from pointer `p` (with fuel dominating the walk length). -/
def chainIdsAux {K : Type} (heap : List (SkipNode K)) (l : Nat) :
    Nat → Option Nat → List Nat
  | _, none => []
  | 0, some _ => []
  | fuel + 1, some p =>
    match heap[p]? with
    | none => []
    | some n => p :: chainIdsAux heap l fuel (n.links.getD l none)

/-- The arena indices on the level-`l` chain from the header. -/
def chainIds {K : Type} (s : SkipState K) (l : Nat) : List Nat :=
  chainIdsAux s.heap l s.heap.length (headerLink s.heap l)

/-- The keys on the level-`l` chain from the header, in chain order. -/
def chainKeys {K : Type} (s : SkipState K) (l : Nat) : List K :=
  (chainIds s l).filterMap fun p => (s.heap[p]?).map SkipNode.key

/-- Correctness of a predecessor stack for the splice/unsplice loops: the
top of the stack is the scan predecessor for every level from `lvl` up to
its own height, the rest of the stack takes over from there, and the
stack as a whole covers every level up to `top`. -/
def StackOK {K : Type} [LinearOrder K] (heap : List (SkipNode K)) (L : List (Entry K))
    (key : K) (top : Nat) : List Nat → Nat → Prop
  | [], lvl => top ≤ lvl
  | q :: rest, lvl =>
    ∃ qn, heap[q]? = some qn ∧ lvl < qn.links.length ∧ qn.links.length ≤ top ∧
      (∀ l, lvl ≤ l → l < qn.links.length → predIdAt L l key = q) ∧
      StackOK heap L key top rest qn.links.length

/-- Insertion of a fresh entry into the sorted abstraction. -/
def insEntry {K : Type} [LinearOrder K] (L : List (Entry K)) (e : Entry K) :
    List (Entry K) :=
  (L.filter fun x => decide (x.key < e.key)) ++ e :: (L.filter fun x => decide (e.key < x.key))

/-- Removal of a key from the sorted abstraction. -/
def delKey {K : Type} [LinearOrder K] (L : List (Entry K)) (c : K) : List (Entry K) :=
  L.filter fun x => decide (x.key ≠ c)

/-- The forward-reference installations a successful splice is expected to
record, two per level from `lvl` for `cnt` levels: first the predecessor's
reference at that level is pointed at the new node, then the new node's
reference at that level receives the value `lnk` gives for that level (the
predecessor's previous forward reference). -/
def expectedEvs (pred : Nat → Nat) (lnk : Nat → Option Nat) (newId : Nat) :
    Nat → Nat → List SetEv
  | _, 0 => []
  | lvl, cnt + 1 =>
    SetEv.mk (pred lvl) lvl (some newId) :: SetEv.mk newId lvl (lnk lvl) ::
      expectedEvs pred lnk newId (lvl + 1) cnt

/-- Fold a sequence of insertions over the container, counting the accepted
(`true`-returning) inserts. -/
def runInserts {K : Type} [LinearOrder K] :
    SkipState K → List K → Except String (SkipState K × Nat)
  | s, [] => Except.ok (s, 0)
  | s, k :: ks => do
    let r ← s.Insert k
    let r' ← runInserts r.2 ks
    Except.ok (r'.1, (if r.1 then 1 else 0) + r'.2)

/-- The order of installations the specification describes for the splice, two
per level from `lvl` for `cnt` levels: first the new node's reference at that
level is set to the predecessor's previous forward reference, then the
predecessor's reference at that level is pointed at the new node.  Stated from
the spec's words, to be compared with `expectedEvs`, which is read off the
source. -/
def claimedEvs (pred : Nat → Nat) (lnk : Nat → Option Nat) (newId : Nat) :
    Nat → Nat → List SetEv
  | _, 0 => []
  | lvl, cnt + 1 =>
    SetEv.mk newId lvl (lnk lvl) :: SetEv.mk (pred lvl) lvl (some newId) ::
      claimedEvs pred lnk newId (lvl + 1) cnt

/-- Heaps with identical arena layout: same length, and node for node the
same key and the same number of levels. -/
def HeapShapeEq {K : Type} (heap heap' : List (SkipNode K)) : Prop :=
  heap'.length = heap.length ∧
    ∀ (p : Nat) (n : SkipNode K), heap[p]? = some n →
      ∃ n', heap'[p]? = some n' ∧ n'.key = n.key ∧ n'.links.length = n.links.length

/-- All forward references at levels `lvl` and above agree between the two
heaps. -/
def LinksSameFrom {K : Type} (heap heap' : List (SkipNode K)) (lvl : Nat) : Prop :=
  ∀ (p : Nat) (n n' : SkipNode K), heap[p]? = some n → heap'[p]? = some n' →
    ∀ l, lvl ≤ l → n'.links.getD l none = n.links.getD l none

/-! ### Chain segment toolkit -/

theorem chainSeg_nil {K : Type} {heap : List (SkipNode K)} {l : Nat} {p q : Option Nat} :
    ChainSeg heap l p [] q ↔ p = q := Iff.rfl

theorem chainSeg_congr {K : Type} {heap heap' : List (SkipNode K)} {l : Nat}
    {p q : Option Nat} {es : List (Entry K)}
    (hagree : ∀ e ∈ es, ∀ n, heap[e.id]? = some n →
      ∃ n', heap'[e.id]? = some n' ∧ n'.key = n.key ∧ n'.links.length = n.links.length ∧
        n'.links.getD l none = n.links.getD l none) :
    ChainSeg heap l p es q → ChainSeg heap' l p es q := by
  induction es generalizing p with
  | nil => exact fun h => h
  | cons e es ih =>
    rintro ⟨hp, hht, n, hn, hkey, hlen, hrest⟩
    obtain ⟨n', hn', hkey', hlen', hlink'⟩ := hagree e (List.mem_cons_self _ _) n hn
    exact ⟨hp, hht, n', hn', by rw [hkey']; exact hkey, by rw [hlen']; exact hlen,
      hlink' ▸ ih (fun e' he' => hagree e' (List.mem_cons_of_mem _ he')) hrest⟩

theorem chainSeg_append {K : Type} {heap : List (SkipNode K)} {l : Nat}
    {p q : Option Nat} {es₁ es₂ : List (Entry K)} :
    ChainSeg heap l p (es₁ ++ es₂) q ↔
      ∃ m, ChainSeg heap l p es₁ m ∧ ChainSeg heap l m es₂ q := by
  induction es₁ generalizing p with
  | nil =>
    simp only [List.nil_append]
    exact ⟨fun h => ⟨p, rfl, h⟩, fun ⟨m, hm, h⟩ => hm ▸ h⟩
  | cons e es ih =>
    constructor
    · rintro ⟨hp, hht, n, hn, hkey, hlen, hrest⟩
      obtain ⟨m, hm₁, hm₂⟩ := ih.mp hrest
      exact ⟨m, ⟨hp, hht, n, hn, hkey, hlen, hm₁⟩, hm₂⟩
    · rintro ⟨m, ⟨hp, hht, n, hn, hkey, hlen, hm₁⟩, hm₂⟩
      exact ⟨hp, hht, n, hn, hkey, hlen, ih.mpr ⟨m, hm₁, hm₂⟩⟩

theorem chainSeg_mem {K : Type} {heap : List (SkipNode K)} {l : Nat}
    {p q : Option Nat} {es : List (Entry K)} (hch : ChainSeg heap l p es q) :
    ∀ e ∈ es, l < e.ht ∧ ∃ n, heap[e.id]? = some n ∧ n.key = e.key ∧ n.links.length = e.ht := by
  induction es generalizing p with
  | nil => intro e he; cases he
  | cons e' es ih =>
    obtain ⟨hp, hht, n, hn, hkey, hlen, hrest⟩ := hch
    intro e he
    rcases List.mem_cons.mp he with rfl | he
    · exact ⟨hht, n, hn, hkey, hlen⟩
    · exact ih hrest e he

theorem chainSeg_id_lt {K : Type} {heap : List (SkipNode K)} {l : Nat}
    {p q : Option Nat} {es : List (Entry K)} (hch : ChainSeg heap l p es q) :
    ∀ e ∈ es, e.id < heap.length := by
  intro e he
  obtain ⟨_, n, hn, -, -⟩ := chainSeg_mem hch e he
  exact (List.getElem?_eq_some.mp hn).1

/-! ### Sorted entry-list toolkit -/

theorem filter_split_key {K : Type} [LinearOrder K] {L : List (Entry K)}
    (hs : L.Pairwise fun a b => a.key < b.key) (p : Entry K → Bool) (c : K) :
    L.filter p = (L.filter fun e => p e && decide (e.key < c)) ++
      (L.filter fun e => p e && decide (c ≤ e.key)) := by
  induction L with
  | nil => rfl
  | cons e L ih =>
    have htail := ih (List.Pairwise.of_cons hs)
    simp only [List.filter_cons]
    by_cases hpe : p e = true
    · by_cases hlt : e.key < c
      · have hq1 : (p e && decide (e.key < c)) = true := by simp [hpe, hlt]
        have hq2 : (p e && decide (c ≤ e.key)) = false := by simp [not_le.mpr hlt]
        rw [if_pos hpe, if_pos hq1, if_neg (by simp [hq2]), htail]
        simp
      · have hle : c ≤ e.key := not_lt.mp hlt
        have hnone : (L.filter fun x => p x && decide (x.key < c)) = [] := by
          rw [List.filter_eq_nil_iff]
          intro x hx
          have hgt : e.key < x.key := (List.pairwise_cons.mp hs).1 x hx
          simp [not_lt.mpr (le_trans hle (le_of_lt hgt))]
        have hq1 : (p e && decide (e.key < c)) = false := by simp [hlt]
        have hq2 : (p e && decide (c ≤ e.key)) = true := by simp [hpe, hle]
        rw [if_pos hpe, if_neg (by simp [hq1]), if_pos hq2, htail, hnone]
        simp
    · have hq1 : (p e && decide (e.key < c)) = false := by
        simp only [Bool.and_eq_true, not_and] at hpe ⊢
        simp [hpe]
      have hq2 : (p e && decide (c ≤ e.key)) = false := by
        simp only [Bool.and_eq_true, not_and] at hpe ⊢
        simp [hpe]
      rw [if_neg hpe, if_neg (by simp [hq1]), if_neg (by simp [hq2]), htail]

theorem filter_key_eq_singleton {K : Type} [LinearOrder K] {L : List (Entry K)}
    (hs : L.Pairwise fun a b => a.key < b.key) {e : Entry K} (he : e ∈ L)
    (p : Entry K → Bool) (hpe : p e = true) :
    (L.filter fun x => p x && decide (x.key = e.key)) = [e] := by
  induction L with
  | nil => cases he
  | cons x L ih =>
    have hx := (List.pairwise_cons.mp hs).1
    simp only [List.filter_cons]
    rcases List.mem_cons.mp he with rfl | he'
    · have hnone : (L.filter fun y => p y && decide (y.key = e.key)) = [] := by
        rw [List.filter_eq_nil_iff]
        intro y hy
        simp [(hx y hy).ne']
      have hc : (p e && decide (e.key = e.key)) = true := by simp [hpe]
      rw [if_pos hc, hnone]
    · have hxk : x.key < e.key := hx e he'
      have hrec := ih (List.Pairwise.of_cons hs) he'
      have hc : (p x && decide (x.key = e.key)) = false := by simp [hxk.ne]
      rw [if_neg (by simp [hc]), hrec]

theorem filter_split_key_le {K : Type} [LinearOrder K] {L : List (Entry K)}
    (hs : L.Pairwise fun a b => a.key < b.key) (p : Entry K → Bool) (c : K) :
    L.filter p = (L.filter fun e => p e && decide (e.key ≤ c)) ++
      (L.filter fun e => p e && decide (c < e.key)) := by
  induction L with
  | nil => rfl
  | cons e L ih =>
    have htail := ih (List.Pairwise.of_cons hs)
    simp only [List.filter_cons]
    by_cases hpe : p e = true
    · by_cases hlt : e.key ≤ c
      · have hq1 : (p e && decide (e.key ≤ c)) = true := by simp [hpe, hlt]
        have hq2 : (p e && decide (c < e.key)) = false := by simp [not_lt.mpr hlt]
        rw [if_pos hpe, if_pos hq1, if_neg (by simp [hq2]), htail]
        simp
      · have hle : c < e.key := not_le.mp hlt
        have hnone : (L.filter fun x => p x && decide (x.key ≤ c)) = [] := by
          rw [List.filter_eq_nil_iff]
          intro x hx
          have hgt : e.key < x.key := (List.pairwise_cons.mp hs).1 x hx
          simp [not_le.mpr (lt_trans hle hgt)]
        have hq1 : (p e && decide (e.key ≤ c)) = false := by simp [hlt]
        have hq2 : (p e && decide (c < e.key)) = true := by simp [hpe, hle]
        rw [if_pos hpe, if_neg (by simp [hq1]), if_pos hq2, htail, hnone]
        simp
    · have hq1 : (p e && decide (e.key ≤ c)) = false := by
        simp only [Bool.and_eq_true, not_and] at hpe ⊢
        simp [hpe]
      have hq2 : (p e && decide (c < e.key)) = false := by
        simp only [Bool.and_eq_true, not_and] at hpe ⊢
        simp [hpe]
      rw [if_neg hpe, if_neg (by simp [hq1]), if_neg (by simp [hq2]), htail]

theorem mem_of_getLast?_eq {α : Type _} {l : List α} {x : α}
    (h : l.getLast? = some x) : x ∈ l := by
  obtain ⟨hne, rfl⟩ := List.mem_getLast?_eq_getLast (Option.mem_def.mpr h)
  exact List.getLast_mem hne

theorem sorted_last_key_max {K : Type} [LinearOrder K] {xs : List (Entry K)}
    (hs : xs.Pairwise fun a b => a.key < b.key) {x : Entry K}
    (hlast : xs.getLast? = some x) : ∀ y ∈ xs, y.key ≤ x.key := by
  induction xs with
  | nil => cases hlast
  | cons a xs ih =>
    cases xs with
    | nil =>
      simp only [List.getLast?_singleton, Option.some.injEq] at hlast
      subst hlast
      intro y hy
      simp only [List.mem_singleton] at hy
      subst hy
      exact le_refl _
    | cons b xs =>
      rw [List.getLast?_cons_cons] at hlast
      intro y hy
      rcases List.mem_cons.mp hy with rfl | hy'
      · have hxmem : x ∈ b :: xs := mem_of_getLast?_eq hlast
        exact le_of_lt ((List.pairwise_cons.mp hs).1 x hxmem)
      · exact ih (List.Pairwise.of_cons hs) hlast y hy'

theorem sorted_last_of_max {K : Type} [LinearOrder K] {xs : List (Entry K)}
    (hs : xs.Pairwise fun a b => a.key < b.key) {x : Entry K} (hx : x ∈ xs)
    (hmax : ∀ y ∈ xs, y.key ≤ x.key) : xs.getLast? = some x := by
  induction xs with
  | nil => cases hx
  | cons a xs ih =>
    cases xs with
    | nil =>
      simp only [List.mem_singleton] at hx
      subst hx
      rfl
    | cons b xs =>
      rw [List.getLast?_cons_cons]
      rcases List.mem_cons.mp hx with rfl | hx'
      · exfalso
        have hba : b.key ≤ x.key := hmax b (List.mem_cons_of_mem _ (List.mem_cons_self _ _))
        have : x.key < b.key := (List.pairwise_cons.mp hs).1 b (List.mem_cons_self _ _)
        exact absurd hba (not_le.mpr this)
      · exact ih (List.Pairwise.of_cons hs) hx' fun y hy => hmax y (List.mem_cons_of_mem _ hy)

/-! ### Key-bounded slice lemmas -/

theorem entriesAt_split {K : Type} [LinearOrder K] {L : List (Entry K)}
    (hs : L.Pairwise fun a b => a.key < b.key) (l : Nat) (c : K) :
    entriesAt L l = belowAt L l c ++ fromKey L l c :=
  filter_split_key hs _ c

theorem mem_belowAt {K : Type} [LinearOrder K] {L : List (Entry K)} {l : Nat} {c : K}
    {e : Entry K} : e ∈ belowAt L l c ↔ e ∈ L ∧ l < e.ht ∧ e.key < c := by
  simp [belowAt, List.mem_filter, and_assoc]

theorem mem_aboveAt {K : Type} [LinearOrder K] {L : List (Entry K)} {l : Nat} {c : K}
    {e : Entry K} : e ∈ aboveAt L l c ↔ e ∈ L ∧ l < e.ht ∧ c < e.key := by
  simp [aboveAt, List.mem_filter, and_assoc]

theorem mem_fromKey {K : Type} [LinearOrder K] {L : List (Entry K)} {l : Nat} {c : K}
    {e : Entry K} : e ∈ fromKey L l c ↔ e ∈ L ∧ l < e.ht ∧ c ≤ e.key := by
  simp [fromKey, List.mem_filter, and_assoc]

theorem mem_entriesAt {K : Type} {L : List (Entry K)} {l : Nat} {e : Entry K} :
    e ∈ entriesAt L l ↔ e ∈ L ∧ l < e.ht := by
  simp [entriesAt, List.mem_filter]

theorem belowAt_sorted {K : Type} [LinearOrder K] {L : List (Entry K)}
    (hs : L.Pairwise fun a b => a.key < b.key) {l : Nat} {c : K} :
    (belowAt L l c).Pairwise fun a b => a.key < b.key := hs.filter _

/-! ### Facts derived from the representation invariant -/

theorem rep_entry_node {K : Type} [LinearOrder K] {s : SkipState K} {L : List (Entry K)}
    (hr : Rep s L) {e : Entry K} (he : e ∈ L) :
    ∃ n, s.heap[e.id]? = some n ∧ n.key = e.key ∧ n.links.length = e.ht := by
  have h0 : e ∈ entriesAt L 0 :=
    mem_entriesAt.mpr ⟨he, lt_of_lt_of_le Nat.zero_lt_one (hr.ht_le e he).1⟩
  obtain ⟨-, n, hn, hkey, hlen⟩ := chainSeg_mem (hr.chains 0 hr.mh_pos) e h0
  exact ⟨n, hn, hkey, hlen⟩

theorem rep_id_lt {K : Type} [LinearOrder K] {s : SkipState K} {L : List (Entry K)}
    (hr : Rep s L) {e : Entry K} (he : e ∈ L) : e.id < s.heap.length := by
  obtain ⟨n, hn, -, -⟩ := rep_entry_node hr he
  exact (List.getElem?_eq_some.mp hn).1

theorem rep_ids_nodup {K : Type} [LinearOrder K] {s : SkipState K} {L : List (Entry K)}
    (hr : Rep s L) : (L.map Entry.id).Nodup := by
  have : L.Pairwise fun a b => a.id ≠ b.id := by
    refine List.Pairwise.imp_of_mem ?_ hr.sorted
    intro a b ha hb hklt hid
    obtain ⟨na, hna, hka, -⟩ := rep_entry_node hr ha
    obtain ⟨nb, hnb, hkb, -⟩ := rep_entry_node hr hb
    rw [hid, hnb, Option.some.injEq] at hna
    exact absurd (by rw [← hka, ← hna, hkb]) (ne_of_lt hklt)
  exact (List.pairwise_map).mpr this

theorem rep_length_lt {K : Type} [LinearOrder K] {s : SkipState K} {L : List (Entry K)}
    (hr : Rep s L) : L.length < s.heap.length := by
  have hnd : (0 :: L.map Entry.id).Nodup := by
    rw [List.nodup_cons]
    refine ⟨?_, rep_ids_nodup hr⟩
    simp only [List.mem_map, not_exists, not_and]
    intro e he h0
    exact hr.nz e he h0
  have hsub : (0 :: L.map Entry.id) ⊆ List.range s.heap.length := by
    intro x hx
    rw [List.mem_range]
    rcases List.mem_cons.mp hx with rfl | hx'
    · obtain ⟨n, hn, -⟩ := hr.hdr
      exact (List.getElem?_eq_some.mp hn).1
    · obtain ⟨e, he, rfl⟩ := List.mem_map.mp hx'
      exact rep_id_lt hr he
  have := (List.subperm_of_subset hnd hsub).length_le
  simp only [List.length_cons, List.length_map, List.length_range] at this
  omega

theorem sorted_head_of_min {K : Type} [LinearOrder K] {xs : List (Entry K)}
    {x : Entry K} (hx : x ∈ xs) (hmin : ∀ y ∈ xs, x.key ≤ y.key)
    (hs : xs.Pairwise fun a b => a.key < b.key) : xs.head? = some x := by
  cases xs with
  | nil => cases hx
  | cons a xs =>
    rcases List.mem_cons.mp hx with rfl | hx'
    · rfl
    · exfalso
      have h1 : a.key < x.key := (List.pairwise_cons.mp hs).1 x hx'
      exact absurd (hmin a (List.mem_cons_self _ _)) (not_le.mpr h1)

theorem sorted_key_inj {K : Type} [LinearOrder K] {L : List (Entry K)}
    (hs : L.Pairwise fun a b => a.key < b.key) {e f : Entry K}
    (he : e ∈ L) (hf : f ∈ L) (hk : e.key = f.key) : e = f := by
  induction L with
  | nil => cases he
  | cons x L ih =>
    have hx := (List.pairwise_cons.mp hs).1
    rcases List.mem_cons.mp he with rfl | he' <;> rcases List.mem_cons.mp hf with rfl | hf'
    · rfl
    · exact absurd hk (ne_of_lt (hx f hf'))
    · exact absurd hk.symm (ne_of_lt (hx e he'))
    · exact ih (List.Pairwise.of_cons hs) he' hf'

theorem entriesAt_split_at_mem {K : Type} [LinearOrder K] {L : List (Entry K)}
    (hs : L.Pairwise fun a b => a.key < b.key) {e : Entry K} (he : e ∈ L) {l : Nat}
    (hl : l < e.ht) :
    entriesAt L l = belowAt L l e.key ++ e :: aboveAt L l e.key := by
  have h1 := filter_split_key_le hs (fun x => decide (l < x.ht)) e.key
  have h2 := filter_split_key hs (fun x => decide (l < x.ht) && decide (x.key ≤ e.key)) e.key
  have h3 : (L.filter fun x =>
      (decide (l < x.ht) && decide (x.key ≤ e.key)) && decide (x.key < e.key)) =
      belowAt L l e.key := by
    apply List.filter_congr
    intro x _
    by_cases hx : x.key < e.key
    · simp [hx, le_of_lt hx]
    · simp [hx]
  have h4 : (L.filter fun x =>
      (decide (l < x.ht) && decide (x.key ≤ e.key)) && decide (e.key ≤ x.key)) =
      (L.filter fun x => decide (l < x.ht) && decide (x.key = e.key)) := by
    apply List.filter_congr
    intro x _
    by_cases hx : x.key = e.key
    · simp [hx]
    · by_cases hle : x.key ≤ e.key
      · have : ¬ e.key ≤ x.key := fun h => hx (le_antisymm hle h)
        simp [hle, this, hx]
      · simp [hle, hx]
  have h5 : (L.filter fun x => decide (l < x.ht) && decide (x.key = e.key)) = [e] :=
    filter_key_eq_singleton hs he _ (by simp [hl])
  calc entriesAt L l
      = (L.filter fun x => decide (l < x.ht) && decide (x.key ≤ e.key)) ++
          aboveAt L l e.key := h1
    _ = (belowAt L l e.key ++ [e]) ++ aboveAt L l e.key := by rw [h2, h3, h4, h5]
    _ = belowAt L l e.key ++ e :: aboveAt L l e.key := by simp

theorem rep_suffix_at {K : Type} [LinearOrder K] {s : SkipState K} {L : List (Entry K)}
    (hr : Rep s L) {e : Entry K} (he : e ∈ L) {l : Nat} (hl : l < e.ht) :
    ∃ n, s.heap[e.id]? = some n ∧ n.key = e.key ∧ n.links.length = e.ht ∧
      ChainSeg s.heap l (n.links.getD l none) (aboveAt L l e.key) none := by
  have hlm : l < s.maxHeight := lt_of_lt_of_le hl (hr.ht_le e he).2
  have hch := hr.chains l hlm
  rw [entriesAt_split_at_mem hr.sorted he hl] at hch
  obtain ⟨m, hA, hm⟩ := chainSeg_append.mp hch
  obtain ⟨hp, hht, n, hn, hkey, hlen, hrest⟩ := hm
  exact ⟨n, hn, hkey, hlen, hrest⟩

theorem predE_mem {K : Type} [LinearOrder K] {L : List (Entry K)} {l : Nat} {key : K}
    {e : Entry K} (h : predE L l key = some e) : e ∈ L ∧ l < e.ht ∧ e.key < key :=
  mem_belowAt.mp (mem_of_getLast?_eq h)

theorem predE_up {K : Type} [LinearOrder K] {L : List (Entry K)}
    (hs : L.Pairwise fun a b => a.key < b.key) {l : Nat} {key : K} {e : Entry K}
    (h : predE L l key = some e) (hht : l + 1 < e.ht) : predE L (l + 1) key = some e := by
  obtain ⟨he, -, hk⟩ := predE_mem h
  have hmem' : e ∈ belowAt L (l + 1) key := mem_belowAt.mpr ⟨he, hht, hk⟩
  apply sorted_last_of_max (belowAt_sorted hs) hmem'
  intro y hy
  obtain ⟨hy1, hy2, hy3⟩ := mem_belowAt.mp hy
  exact sorted_last_key_max (belowAt_sorted hs) h y
    (mem_belowAt.mpr ⟨hy1, Nat.lt_of_succ_lt hy2, hy3⟩)

theorem predE_none_up {K : Type} [LinearOrder K] {L : List (Entry K)} {key : K} {l : Nat}
    (h : predE L l key = none) : predE L (l + 1) key = none := by
  rw [predE, List.getLast?_eq_none_iff, List.eq_nil_iff_forall_not_mem] at h ⊢
  intro y hy
  obtain ⟨h1, h2, h3⟩ := mem_belowAt.mp hy
  exact h y (mem_belowAt.mpr ⟨h1, Nat.lt_of_succ_lt h2, h3⟩)

/-- Above the container's maximum height there are no predecessors: the scan
predecessor is the header. -/
theorem predE_top {K : Type} [LinearOrder K] {s : SkipState K} {L : List (Entry K)}
    (hr : Rep s L) (key : K) {l : Nat} (hl : s.maxHeight ≤ l) : predE L l key = none := by
  rw [predE, List.getLast?_eq_none_iff, List.eq_nil_iff_forall_not_mem]
  intro y hy
  obtain ⟨h1, h2, -⟩ := mem_belowAt.mp hy
  exact absurd (lt_of_le_of_lt hl h2) (not_lt.mpr (hr.ht_le y h1).2)

/-- Entering level `i` of a top-down scan for `key`, the current pointer is
the scan predecessor computed at level `i + 1`.  This lemma provides the
node held there, the remaining level-`i` chain past it split at `key`, and
identifies the landing pointer of the level-`i` advance loop (the last
visited node) with the level-`i` scan predecessor. -/
theorem descend_setup {K : Type} [LinearOrder K] {s : SkipState K} {L : List (Entry K)}
    (hr : Rep s L) (key : K) {i : Nat} (hi : i < s.maxHeight) :
    ∃ cn bs, s.heap[predIdAt L (i + 1) key]? = some cn ∧ i < cn.links.length ∧
      ChainSeg s.heap i (cn.links.getD i none) (bs ++ fromKey L i key) none ∧
      (∀ e ∈ bs, e.key < key) ∧
      (bs.getLast?).elim (predIdAt L (i + 1) key) Entry.id = predIdAt L i key ∧
      bs.length ≤ L.length := by
  cases hP : predE L (i + 1) key with
  | none =>
    obtain ⟨hdr, hhd, hlen⟩ := hr.hdr
    have hpid : predIdAt L (i + 1) key = 0 := by simp [predIdAt, hP]
    refine ⟨hdr, belowAt L i key, ?_, ?_, ?_, ?_, ?_, List.length_filter_le _ _⟩
    · rw [hpid, hhd]
    · rw [hlen]; exact hi
    · have hch := hr.chains i hi
      rw [entriesAt_split hr.sorted i key] at hch
      have : headerLink s.heap i = hdr.links.getD i none := by
        simp [headerLink, hhd]
      rwa [this] at hch
    · intro e he
      exact (mem_belowAt.mp he).2.2
    · rw [hpid]
      cases hQ : (belowAt L i key).getLast? with
      | none => simp [predIdAt, predE, hQ]
      | some g => simp [predIdAt, predE, hQ]
  | some e =>
    obtain ⟨he, hht, hk⟩ := predE_mem hP
    have hie : i < e.ht := Nat.lt_of_succ_lt hht
    have hpid : predIdAt L (i + 1) key = e.id := by simp [predIdAt, hP]
    obtain ⟨n, hn, hkey, hlen, hch⟩ := rep_suffix_at hr he hie
    have h6 := filter_split_key hr.sorted
      (fun x => decide (i < x.ht) && decide (e.key < x.key)) key
    have h7 : (L.filter fun x =>
        (decide (i < x.ht) && decide (e.key < x.key)) && decide (key ≤ x.key)) =
        fromKey L i key := by
      apply List.filter_congr
      intro x _
      by_cases hx : key ≤ x.key
      · simp [hx, lt_of_lt_of_le hk hx]
      · simp [hx]
    have hsplit : aboveAt L i e.key =
        (L.filter fun x =>
          (decide (i < x.ht) && decide (e.key < x.key)) && decide (x.key < key)) ++
        fromKey L i key := by
      rw [aboveAt, h6, h7]
    set bs := L.filter fun x =>
      (decide (i < x.ht) && decide (e.key < x.key)) && decide (x.key < key) with hbs
    have hmem_bs : ∀ x ∈ bs, x ∈ L ∧ i < x.ht ∧ e.key < x.key ∧ x.key < key := by
      intro x hx
      have := List.mem_filter.mp hx
      simp only [Bool.and_eq_true, decide_eq_true_eq] at this
      exact ⟨this.1, this.2.1.1, this.2.1.2, this.2.2⟩
    refine ⟨n, bs, ?_, ?_, ?_, ?_, ?_, List.length_filter_le _ _⟩
    · rw [hpid]; exact hn
    · rw [hlen]; exact hie
    · rw [← hsplit]; exact hch
    · intro x hx
      exact (hmem_bs x hx).2.2.2
    · rw [hpid]
      cases hQ : bs.getLast? with
      | none =>
        have hbs_nil : bs = [] := List.getLast?_eq_none_iff.mp hQ
        have hmax : ∀ y ∈ belowAt L i key, y.key ≤ e.key := by
          intro y hy
          obtain ⟨hy1, hy2, hy3⟩ := mem_belowAt.mp hy
          by_contra hgt
          have hey : e.key < y.key := not_le.mp hgt
          have : y ∈ bs := by
            rw [hbs]
            refine List.mem_filter.mpr ⟨hy1, ?_⟩
            simp [hy2, hey, hy3]
          rw [hbs_nil] at this
          cases this
        have hQ2 : predE L i key = some e :=
          sorted_last_of_max (belowAt_sorted hr.sorted)
            (mem_belowAt.mpr ⟨he, hie, hk⟩) hmax
        simp [predIdAt, hQ2]
      | some g =>
        have hg := hmem_bs g (mem_of_getLast?_eq hQ)
        have hbs_sorted : bs.Pairwise fun a b => a.key < b.key := hr.sorted.filter _
        have hmax : ∀ y ∈ belowAt L i key, y.key ≤ g.key := by
          intro y hy
          obtain ⟨hy1, hy2, hy3⟩ := mem_belowAt.mp hy
          by_cases hye : y.key ≤ e.key
          · exact le_of_lt (lt_of_le_of_lt hye hg.2.2.1)
          · have hey : e.key < y.key := not_le.mp hye
            have hyb : y ∈ bs := by
              rw [hbs]
              refine List.mem_filter.mpr ⟨hy1, ?_⟩
              simp [hy2, hey, hy3]
            exact sorted_last_key_max hbs_sorted hQ y hyb
        have hQ2 : predE L i key = some g :=
          sorted_last_of_max (belowAt_sorted hr.sorted)
            (mem_belowAt.mpr ⟨hg.1, hg.2.1, hg.2.2.2⟩) hmax
        simp [predIdAt, hQ2]

theorem ok_bind {ε α β : Type _} (a : α) (f : α → Except ε β) :
    (Except.ok a : Except ε α) >>= f = f a := rfl

theorem getLast?_cons_elim {α β : Type _} (b : α) (bs : List α) (c : β) (f : α → β) :
    ((b :: bs).getLast?).elim c f = (bs.getLast?).elim (f b) f := by
  cases bs with
  | nil => rfl
  | cons x t =>
    rw [List.getLast?_cons_cons]
    cases h : (x :: t).getLast? with
    | none => exact absurd (List.getLast?_eq_none_iff.mp h) (List.cons_ne_nil _ _)
    | some g => rfl

/-! ### Running the per-level advance loops along a known chain -/

theorem containsLevel_run {K : Type} [LinearOrder K] {heap : List (SkipNode K)} {key : K}
    {l : Nat} {bs : List (Entry K)} :
    ∀ {cs : List (Entry K)} {fuel cur : Nat} {cn : SkipNode K},
    heap[cur]? = some cn → l < cn.links.length →
    ChainSeg heap l (cn.links.getD l none) (bs ++ cs) none →
    (∀ e ∈ bs, e.key < key) →
    (∀ e, cs.head? = some e → ¬ e.key < key) →
    bs.length < fuel →
    containsLevel heap key l fuel cur =
      Except.ok ((cs.head?).elim false (fun e => decide (¬ key < e.key)),
        (bs.getLast?).elim cur Entry.id) := by
  induction bs with
  | nil =>
    intro cs fuel cur cn hcur hlt hch hbs hcs hfuel
    cases fuel with
    | zero => exact absurd hfuel (Nat.not_lt_zero _)
    | succ f =>
    rw [List.nil_append] at hch
    cases cs with
    | nil =>
      have hnil : cn.links.getD l none = none := hch
      rw [List.getD_eq_getElem?_getD] at hnil
      simp [containsLevel, nodeAt, hcur, SkipNode.Next, ok_bind, not_le.mpr hlt, hnil]
    | cons e cs' =>
      obtain ⟨hp, hht, n, hn, hkey, hlen, hrest⟩ := hch
      rw [List.getD_eq_getElem?_getD] at hp
      by_cases hke : key < e.key
      · have : key < n.key := by rw [hkey]; exact hke
        simp [containsLevel, nodeAt, hcur, SkipNode.Next, ok_bind, not_le.mpr hlt, hp, hn,
          this, hke]
      · have hek : ¬ e.key < key := hcs e rfl
        have h1 : ¬ key < n.key := by rw [hkey]; exact hke
        have h2 : ¬ n.key < key := by rw [hkey]; exact hek
        simp [containsLevel, nodeAt, hcur, SkipNode.Next, ok_bind, not_le.mpr hlt, hp, hn,
          h1, le_of_not_lt h2, le_of_not_lt hke]
  | cons b bs' ih =>
    intro cs fuel cur cn hcur hlt hch hbs hcs hfuel
    cases fuel with
    | zero => exact absurd hfuel (Nat.not_lt_zero _)
    | succ f =>
    obtain ⟨hp, hht, n, hn, hkey, hlen, hrest⟩ := hch
    rw [List.getD_eq_getElem?_getD] at hp
    have hbk : b.key < key := hbs b (List.mem_cons_self _ _)
    have h1 : ¬ key < n.key := by rw [hkey]; exact not_lt.mpr (le_of_lt hbk)
    have h2 : n.key < key := by rw [hkey]; exact hbk
    have hstep : containsLevel heap key l (f + 1) cur = containsLevel heap key l f b.id := by
      simp [containsLevel, nodeAt, hcur, SkipNode.Next, ok_bind, not_le.mpr hlt, hp, hn, h1,
        not_le.mpr h2]
    rw [hstep, ih hn (by rw [hlen]; exact hht) hrest
      (fun e he => hbs e (List.mem_cons_of_mem _ he)) hcs
      (by simp only [List.length_cons] at hfuel; omega), getLast?_cons_elim]

theorem insertLevel_run {K : Type} [LinearOrder K] {heap : List (SkipNode K)} {key : K}
    {l : Nat} {bs : List (Entry K)} :
    ∀ {cs : List (Entry K)} {fuel cur : Nat} {cn : SkipNode K},
    heap[cur]? = some cn → l < cn.links.length →
    ChainSeg heap l (cn.links.getD l none) (bs ++ cs) none →
    (∀ e ∈ bs, e.key < key) →
    (∀ e, cs.head? = some e → key < e.key) →
    bs.length < fuel →
    insertLevel heap key l fuel cur = Except.ok ((bs.getLast?).elim cur Entry.id) := by
  induction bs with
  | nil =>
    intro cs fuel cur cn hcur hlt hch hbs hcs hfuel
    cases fuel with
    | zero => exact absurd hfuel (Nat.not_lt_zero _)
    | succ f =>
    rw [List.nil_append] at hch
    cases cs with
    | nil =>
      have hnil : cn.links.getD l none = none := hch
      rw [List.getD_eq_getElem?_getD] at hnil
      simp [insertLevel, nodeAt, hcur, SkipNode.Next, ok_bind, not_le.mpr hlt, hnil]
    | cons e cs' =>
      obtain ⟨hp, hht, n, hn, hkey, hlen, hrest⟩ := hch
      rw [List.getD_eq_getElem?_getD] at hp
      have : key < n.key := by rw [hkey]; exact hcs e rfl
      simp [insertLevel, nodeAt, hcur, SkipNode.Next, ok_bind, not_le.mpr hlt, hp, hn, this]
  | cons b bs' ih =>
    intro cs fuel cur cn hcur hlt hch hbs hcs hfuel
    cases fuel with
    | zero => exact absurd hfuel (Nat.not_lt_zero _)
    | succ f =>
    obtain ⟨hp, hht, n, hn, hkey, hlen, hrest⟩ := hch
    rw [List.getD_eq_getElem?_getD] at hp
    have hbk : b.key < key := hbs b (List.mem_cons_self _ _)
    have h1 : ¬ key < n.key := by rw [hkey]; exact not_lt.mpr (le_of_lt hbk)
    have hstep : insertLevel heap key l (f + 1) cur = insertLevel heap key l f b.id := by
      simp [insertLevel, nodeAt, hcur, SkipNode.Next, ok_bind, not_le.mpr hlt, hp, hn, h1]
    rw [hstep, ih hn (by rw [hlen]; exact hht) hrest
      (fun e he => hbs e (List.mem_cons_of_mem _ he)) hcs
      (by simp only [List.length_cons] at hfuel; omega), getLast?_cons_elim]

theorem eraseLevel_run {K : Type} [LinearOrder K] {heap : List (SkipNode K)} {key : K}
    {l : Nat} {bs : List (Entry K)} :
    ∀ {cs : List (Entry K)} {fuel cur : Nat} (te : Option Nat) {cn : SkipNode K},
    heap[cur]? = some cn → l < cn.links.length →
    ChainSeg heap l (cn.links.getD l none) (bs ++ cs) none →
    (∀ e ∈ bs, e.key < key) →
    (∀ e, cs.head? = some e → ¬ e.key < key) →
    bs.length < fuel →
    eraseLevel heap key l fuel cur te =
      Except.ok ((bs.getLast?).elim cur Entry.id,
        (cs.head?).elim te (fun e => if key < e.key then te else some e.id)) := by
  induction bs with
  | nil =>
    intro cs fuel cur te cn hcur hlt hch hbs hcs hfuel
    cases fuel with
    | zero => exact absurd hfuel (Nat.not_lt_zero _)
    | succ f =>
    rw [List.nil_append] at hch
    cases cs with
    | nil =>
      have hnil : cn.links.getD l none = none := hch
      rw [List.getD_eq_getElem?_getD] at hnil
      simp [eraseLevel, nodeAt, hcur, SkipNode.Next, ok_bind, not_le.mpr hlt, hnil]
    | cons e cs' =>
      obtain ⟨hp, hht, n, hn, hkey, hlen, hrest⟩ := hch
      rw [List.getD_eq_getElem?_getD] at hp
      by_cases hke : key < e.key
      · have : key < n.key := by rw [hkey]; exact hke
        simp [eraseLevel, nodeAt, hcur, SkipNode.Next, ok_bind, not_le.mpr hlt, hp, hn,
          this, hke]
      · have hek : ¬ e.key < key := hcs e rfl
        have h1 : ¬ key < n.key := by rw [hkey]; exact hke
        have h2 : ¬ n.key < key := by rw [hkey]; exact hek
        simp [eraseLevel, nodeAt, hcur, SkipNode.Next, ok_bind, not_le.mpr hlt, hp, hn,
          h1, h2, hke]
  | cons b bs' ih =>
    intro cs fuel cur te cn hcur hlt hch hbs hcs hfuel
    cases fuel with
    | zero => exact absurd hfuel (Nat.not_lt_zero _)
    | succ f =>
    obtain ⟨hp, hht, n, hn, hkey, hlen, hrest⟩ := hch
    rw [List.getD_eq_getElem?_getD] at hp
    have hbk : b.key < key := hbs b (List.mem_cons_self _ _)
    have h1 : ¬ key < n.key := by rw [hkey]; exact not_lt.mpr (le_of_lt hbk)
    have h2 : n.key < key := by rw [hkey]; exact hbk
    have hstep : eraseLevel heap key l (f + 1) cur te = eraseLevel heap key l f b.id te := by
      simp [eraseLevel, nodeAt, hcur, SkipNode.Next, ok_bind, not_le.mpr hlt, hp, hn, h1, h2]
    rw [hstep, ih te hn (by rw [hlen]; exact hht) hrest
      (fun e he => hbs e (List.mem_cons_of_mem _ he)) hcs
      (by simp only [List.length_cons] at hfuel; omega), getLast?_cons_elim]

theorem head?_mem {α : Type _} {xs : List α} {x : α} (h : xs.head? = some x) : x ∈ xs := by
  cases xs with
  | nil => cases h
  | cons a t =>
    rw [List.head?_cons, Option.some.injEq] at h
    rw [← h]
    exact List.mem_cons_self _ _

/-! ### Contains -/

theorem containsFrom_absent {K : Type} [LinearOrder K] {s : SkipState K} {L : List (Entry K)}
    (hr : Rep s L) {key : K} (habs : ∀ e ∈ L, e.key ≠ key) :
    ∀ i, i ≤ s.maxHeight →
      containsFrom s.heap key i (predIdAt L i key) = Except.ok false := by
  intro i
  induction i with
  | zero => intro _; rfl
  | succ i ih =>
    intro hle
    have hi : i < s.maxHeight := Nat.lt_of_succ_le hle
    obtain ⟨cn, bs, hcn, hlt, hch, hbs, hland, hlen⟩ := descend_setup hr key hi
    have hfuel : bs.length < s.heap.length := lt_of_le_of_lt hlen (rep_length_lt hr)
    have hcs : ∀ e, (fromKey L i key).head? = some e → ¬ e.key < key := fun e he =>
      not_lt.mpr (mem_fromKey.mp (head?_mem he)).2.2
    have hrun := containsLevel_run hcn hlt hch hbs hcs hfuel
    have hfound : ((fromKey L i key).head?).elim false
        (fun e => decide (e.key ≤ key)) = false := by
      cases hh : (fromKey L i key).head? with
      | none => rfl
      | some e =>
        obtain ⟨he1, -, he3⟩ := mem_fromKey.mp (head?_mem hh)
        have : key < e.key := lt_of_le_of_ne he3 (fun h => habs e he1 h.symm)
        simp [not_le.mpr this]
    calc containsFrom s.heap key (i + 1) (predIdAt L (i + 1) key)
        = containsFrom s.heap key i (predIdAt L i key) := by
          simp [containsFrom, hrun, ok_bind, hfound, hland]
      _ = Except.ok false := ih (le_of_lt hi)

theorem containsFrom_present {K : Type} [LinearOrder K] {s : SkipState K} {L : List (Entry K)}
    (hr : Rep s L) {key : K} {et : Entry K} (het : et ∈ L) (hetk : et.key = key) :
    ∀ i, i ≤ s.maxHeight → 1 ≤ i →
      containsFrom s.heap key i (predIdAt L i key) = Except.ok true := by
  intro i
  induction i with
  | zero => intro _ h; exact absurd h (by omega)
  | succ i ih =>
    intro hle _
    have hi : i < s.maxHeight := Nat.lt_of_succ_le hle
    obtain ⟨cn, bs, hcn, hlt, hch, hbs, hland, hlen⟩ := descend_setup hr key hi
    have hfuel : bs.length < s.heap.length := lt_of_le_of_lt hlen (rep_length_lt hr)
    have hcs : ∀ e, (fromKey L i key).head? = some e → ¬ e.key < key := fun e he =>
      not_lt.mpr (mem_fromKey.mp (head?_mem he)).2.2
    have hrun := containsLevel_run hcn hlt hch hbs hcs hfuel
    by_cases hih : i < et.ht
    · have hmem : et ∈ fromKey L i key := mem_fromKey.mpr ⟨het, hih, le_of_eq hetk.symm⟩
      have hhd : (fromKey L i key).head? = some et := by
        apply sorted_head_of_min hmem ?_ (hr.sorted.filter _)
        intro y hy
        rw [hetk]
        exact (mem_fromKey.mp hy).2.2
      simp [containsFrom, hrun, ok_bind, hhd, le_of_eq hetk]
    · have hfound : ((fromKey L i key).head?).elim false
          (fun e => decide (e.key ≤ key)) = false := by
        cases hh : (fromKey L i key).head? with
        | none => rfl
        | some e =>
          obtain ⟨he1, he2, he3⟩ := mem_fromKey.mp (head?_mem hh)
          have hne : e ≠ et := by rintro rfl; exact hih he2
          have : key < e.key := lt_of_le_of_ne he3 fun h =>
            hne (sorted_key_inj hr.sorted he1 het (by rw [← h, hetk]))
          simp [not_le.mpr this]
      have h1i : 1 ≤ i := le_trans (hr.ht_le et het).1 (not_lt.mp hih)
      calc containsFrom s.heap key (i + 1) (predIdAt L (i + 1) key)
          = containsFrom s.heap key i (predIdAt L i key) := by
            simp [containsFrom, hrun, ok_bind, hfound, hland]
        _ = Except.ok true := ih (le_of_lt hi) h1i

/-- `Contains(key)` holds exactly when the abstraction lists the key. -/
theorem contains_spec {K : Type} [LinearOrder K] {s : SkipState K} {L : List (Entry K)}
    (hr : Rep s L) (key : K) :
    s.Contains key = Except.ok (decide (∃ e ∈ L, e.key = key)) := by
  have h0 : predIdAt L s.maxHeight key = 0 := by
    simp [predIdAt, predE_top hr key (le_refl _)]
  by_cases hp : ∃ e ∈ L, e.key = key
  · obtain ⟨et, het, hetk⟩ := hp
    have hrun := containsFrom_present hr het hetk s.maxHeight (le_refl _) hr.mh_pos
    rw [h0] at hrun
    rw [SkipState.Contains, hrun]
    simp only [Except.ok.injEq]
    exact (decide_eq_true ⟨et, het, hetk⟩).symm
  · have habs : ∀ e ∈ L, e.key ≠ key := fun e he hk => hp ⟨e, he, hk⟩
    have hrun := containsFrom_absent hr habs s.maxHeight (le_refl _)
    rw [h0] at hrun
    rw [SkipState.Contains, hrun]
    simp only [Except.ok.injEq]
    exact (decide_eq_false hp).symm

theorem predE_some_mono {K : Type} [LinearOrder K] {L : List (Entry K)}
    (hs : L.Pairwise fun a b => a.key < b.key) {key : K} {i : Nat} {e : Entry K}
    (h : predE L i key = some e) :
    ∀ l, i ≤ l → l < e.ht → predE L l key = some e := by
  intro l
  induction l with
  | zero => exact fun hle _ => Nat.le_zero.mp hle ▸ h
  | succ l ih =>
    intro hle hht
    rcases Nat.lt_or_ge i (l + 1) with hlt | hge
    · exact predE_up hs (ih (Nat.lt_succ_iff.mp hlt) (Nat.lt_of_succ_lt hht)) hht
    · exact le_antisymm hle hge ▸ h

theorem predE_none_mono {K : Type} [LinearOrder K] {L : List (Entry K)} {key : K} {i : Nat}
    (h : predE L i key = none) : ∀ l, i ≤ l → predE L l key = none := by
  intro l
  induction l with
  | zero => exact fun hle => Nat.le_zero.mp hle ▸ h
  | succ l ih =>
    intro hle
    rcases Nat.lt_or_ge i (l + 1) with hlt | hge
    · exact predE_none_up (ih (Nat.lt_succ_iff.mp hlt))
    · exact le_antisymm hle hge ▸ h

/-! ### The predecessor stack built by the Insert and Erase scans -/

theorem stackOK_step {K : Type} [LinearOrder K] {s : SkipState K} {L : List (Entry K)}
    (hr : Rep s L) {key : K} {i : Nat} (hi : i < s.maxHeight) {stack : List Nat}
    (hok : StackOK s.heap L key s.maxHeight stack (i + 1)) :
    StackOK s.heap L key s.maxHeight
      (if stack.head? = some (predIdAt L i key) then stack else predIdAt L i key :: stack) i := by
  cases stack with
  | nil =>
    have htop : s.maxHeight ≤ i + 1 := hok
    rw [if_neg (by simp)]
    cases hP : predE L i key with
    | none =>
      obtain ⟨hdr, hhd, hlen⟩ := hr.hdr
      refine ⟨hdr, ?_, ?_, le_of_eq hlen, ?_, ?_⟩
      · simp [predIdAt, hP, hhd]
      · rw [hlen]; exact hi
      · intro l hl hlen'
        simp [predIdAt, predE_none_mono hP l hl, hP]
      · show s.maxHeight ≤ hdr.links.length
        rw [hlen]
    | some e =>
      obtain ⟨he, hht, -⟩ := predE_mem hP
      obtain ⟨n, hn, -, hnlen⟩ := rep_entry_node hr he
      refine ⟨n, ?_, ?_, ?_, ?_, ?_⟩
      · simp [predIdAt, hP, hn]
      · rw [hnlen]; exact hht
      · rw [hnlen]; exact (hr.ht_le e he).2
      · intro l hl hlen'
        rw [hnlen] at hlen'
        simp [predIdAt, predE_some_mono hr.sorted hP l hl hlen', hP]
      · show s.maxHeight ≤ n.links.length
        rw [hnlen]
        omega
  | cons q rest =>
    obtain ⟨qn, hqn, hlvl, hqle, hband, hrest⟩ := hok
    by_cases hhd : (q :: rest).head? = some (predIdAt L i key)
    · rw [if_pos hhd]
      have hq : q = predIdAt L i key := by
        simpa using hhd
      refine ⟨qn, hqn, ?_, hqle, ?_, hrest⟩
      · cases hP : predE L i key with
        | none =>
          obtain ⟨hdr, hhd0, hlen0⟩ := hr.hdr
          have : q = 0 := by rw [hq]; simp [predIdAt, hP]
          rw [this, hhd0, Option.some.injEq] at hqn
          rw [← hqn, hlen0]
          exact hi
        | some e =>
          obtain ⟨he, hht, -⟩ := predE_mem hP
          obtain ⟨n, hn, -, hnlen⟩ := rep_entry_node hr he
          have : q = e.id := by rw [hq]; simp [predIdAt, hP]
          rw [this, hn, Option.some.injEq] at hqn
          rw [← hqn, hnlen]
          exact hht
      · intro l hl hlen'
        rcases Nat.lt_or_ge l (i + 1) with hl1 | hl1
        · have : l = i := by omega
          rw [this, hq]
        · exact hband l hl1 hlen'
    · rw [if_neg hhd]
      have hq1 : predIdAt L (i + 1) key = q :=
        hband (i + 1) (le_refl _) hlvl
      cases hP : predE L i key with
      | none =>
        exfalso
        apply hhd
        have : predE L (i + 1) key = none := predE_none_up hP
        rw [List.head?_cons, ← hq1]
        simp [predIdAt, hP, this]
      | some e =>
        obtain ⟨he, hht, -⟩ := predE_mem hP
        have hehti : e.ht = i + 1 := by
          by_contra hne
          have h2 : i + 1 < e.ht := by omega
          apply hhd
          have := predE_up hr.sorted hP h2
          rw [List.head?_cons, ← hq1]
          simp [predIdAt, hP, this]
        obtain ⟨n, hn, -, hnlen⟩ := rep_entry_node hr he
        refine ⟨n, ?_, ?_, ?_, ?_, ?_⟩
        · simp [predIdAt, hP, hn]
        · rw [hnlen, hehti]; omega
        · rw [hnlen, hehti]; omega
        · intro l hl hlen'
          rw [hnlen, hehti] at hlen'
          have : l = i := by omega
          simp [this, predIdAt, hP]
        · show StackOK s.heap L key s.maxHeight (q :: rest) n.links.length
          rw [hnlen, hehti]
          exact ⟨qn, hqn, hlvl, hqle, hband, hrest⟩

theorem insertScan_run {K : Type} [LinearOrder K] {s : SkipState K} {L : List (Entry K)}
    (hr : Rep s L) {key : K} (habs : ∀ e ∈ L, e.key ≠ key) :
    ∀ i, i ≤ s.maxHeight → ∀ stack, StackOK s.heap L key s.maxHeight stack i →
      ∃ stack', insertScan s.heap key i (predIdAt L i key) stack = Except.ok stack' ∧
        StackOK s.heap L key s.maxHeight stack' 0 := by
  intro i
  induction i with
  | zero =>
    intro _ stack hok
    exact ⟨stack, rfl, hok⟩
  | succ i ih =>
    intro hle stack hok
    have hi : i < s.maxHeight := Nat.lt_of_succ_le hle
    obtain ⟨cn, bs, hcn, hlt, hch, hbs, hland, hlen⟩ := descend_setup hr key hi
    have hfuel : bs.length < s.heap.length := lt_of_le_of_lt hlen (rep_length_lt hr)
    have hcs : ∀ e, (fromKey L i key).head? = some e → key < e.key := by
      intro e he
      obtain ⟨he1, -, he3⟩ := mem_fromKey.mp (head?_mem he)
      exact lt_of_le_of_ne he3 fun h => habs e he1 h.symm
    have hrun := insertLevel_run hcn hlt hch hbs hcs hfuel
    rw [hland] at hrun
    obtain ⟨stack', hs', hok'⟩ := ih (le_of_lt hi) _ (stackOK_step hr hi hok)
    refine ⟨stack', ?_, hok'⟩
    rw [insertScan, hrun, ok_bind, hs']

/-! ### Splice support -/

theorem chainSeg_last {K : Type} {heap : List (SkipNode K)} {l : Nat} {p q : Option Nat}
    {es : List (Entry K)} {a : Entry K} (hch : ChainSeg heap l p es q)
    (hlast : es.getLast? = some a) :
    ∃ n, heap[a.id]? = some n ∧ n.key = a.key ∧ n.links.length = a.ht ∧ l < a.ht ∧
      n.links.getD l none = q := by
  induction es generalizing p with
  | nil => cases hlast
  | cons e es ih =>
    obtain ⟨hp, hht, n, hn, hkey, hlen, hrest⟩ := hch
    cases es with
    | nil =>
      simp only [List.getLast?_singleton, Option.some.injEq] at hlast
      subst hlast
      exact ⟨n, hn, hkey, hlen, hht, hrest⟩
    | cons e2 es2 =>
      rw [List.getLast?_cons_cons] at hlast
      exact ih hrest hlast

theorem chainSeg_retarget {K : Type} {heap heap' : List (SkipNode K)} {l : Nat}
    {p m v : Option Nat} {es : List (Entry K)} {a : Entry K}
    (hch : ChainSeg heap l p es m) (hlast : es.getLast? = some a)
    (hnodup : (es.map Entry.id).Nodup)
    (hagree : ∀ e ∈ es, e.id ≠ a.id → ∀ n, heap[e.id]? = some n →
      ∃ n', heap'[e.id]? = some n' ∧ n'.key = n.key ∧ n'.links.length = n.links.length ∧
        n'.links.getD l none = n.links.getD l none)
    (hnew : ∀ n, heap[a.id]? = some n → ∃ n', heap'[a.id]? = some n' ∧ n'.key = n.key ∧
      n'.links.length = n.links.length ∧ n'.links.getD l none = v) :
    ChainSeg heap' l p es v := by
  induction es generalizing p with
  | nil => cases hlast
  | cons e es ih =>
    obtain ⟨hp, hht, n, hn, hkey, hlen, hrest⟩ := hch
    cases es with
    | nil =>
      simp only [List.getLast?_singleton, Option.some.injEq] at hlast
      subst hlast
      obtain ⟨n', hn', hk', hl', hv'⟩ := hnew n hn
      refine ⟨hp, hht, n', hn', ?_, ?_, ?_⟩
      · rw [hk']; exact hkey
      · rw [hl']; exact hlen
      · rw [hv']
        exact chainSeg_nil.mpr rfl
    | cons e2 es2 =>
      rw [List.getLast?_cons_cons] at hlast
      have hamem : a ∈ e2 :: es2 := mem_of_getLast?_eq hlast
      have hne : e.id ≠ a.id := by
        rw [List.map_cons, List.nodup_cons] at hnodup
        intro hid
        exact hnodup.1 (hid ▸ List.mem_map_of_mem Entry.id hamem)
      obtain ⟨n', hn', hk', hl', hlk'⟩ :=
        hagree e (List.mem_cons_self _ _) hne n hn
      refine ⟨hp, hht, n', hn', ?_, ?_, ?_⟩
      · rw [hk']; exact hkey
      · rw [hl']; exact hlen
      · rw [hlk']
        refine ih hrest hlast ?_ (fun x hx => hagree x (List.mem_cons_of_mem _ hx))
        rw [List.map_cons, List.nodup_cons] at hnodup
        exact hnodup.2

theorem rep_id_inj {K : Type} [LinearOrder K] {s : SkipState K} {L : List (Entry K)}
    (hr : Rep s L) {a b : Entry K} (ha : a ∈ L) (hb : b ∈ L) (hid : a.id = b.id) : a = b := by
  have hpw := (List.pairwise_map).mp (rep_ids_nodup hr)
  by_contra hne
  exact List.Pairwise.forall (fun x y hxy => (Ne.symm hxy)) hpw ha hb hne hid

theorem expectedEvs_append (pred : Nat → Nat) (lnk : Nat → Option Nat) (newId : Nat) :
    ∀ (a lvl b : Nat),
      expectedEvs pred lnk newId lvl a ++ expectedEvs pred lnk newId (lvl + a) b =
        expectedEvs pred lnk newId lvl (a + b) := by
  intro a
  induction a with
  | zero => intro lvl b; simp [expectedEvs]
  | succ a ih =>
    intro lvl b
    have harith : lvl + (a + 1) = (lvl + 1) + a := by omega
    have : (a + 1) + b = (a + b) + 1 := by omega
    rw [this]
    simp only [expectedEvs, List.cons_append, harith, ih (lvl + 1) b]

theorem chainSeg_append_elt {K : Type} {heap : List (SkipNode K)} {x : SkipNode K} {l : Nat}
    {p q : Option Nat} {es : List (Entry K)} (hch : ChainSeg heap l p es q) :
    ChainSeg (heap ++ [x]) l p es q := by
  refine chainSeg_congr ?_ hch
  intro e _ n hn
  have hlt : e.id < heap.length := (List.getElem?_eq_some.mp hn).1
  exact ⟨n, by rw [List.getElem?_append_left hlt]; exact hn, rfl, rfl, rfl⟩

theorem headerLink_append {K : Type} {heap : List (SkipNode K)} {x : SkipNode K}
    (hne : 0 < heap.length) (l : Nat) : headerLink (heap ++ [x]) l = headerLink heap l := by
  rw [headerLink, headerLink, List.getElem?_append_left hne]

/-- The split of the abstraction at a key that is not present. -/
theorem absent_split {K : Type} [LinearOrder K] {L : List (Entry K)}
    (hs : L.Pairwise fun a b => a.key < b.key) {key : K} (habs : ∀ e ∈ L, e.key ≠ key) :
    L = (L.filter fun x => decide (x.key < key)) ++ (L.filter fun x => decide (key < x.key)) := by
  have h1 := filter_split_key hs (fun _ => true) key
  rw [List.filter_true] at h1
  have h2 : (L.filter fun x => true && decide (x.key < key)) =
      L.filter fun x => decide (x.key < key) :=
    List.filter_congr fun x _ => by simp
  have h3 : (L.filter fun x => true && decide (key ≤ x.key)) =
      L.filter fun x => decide (key < x.key) :=
    List.filter_congr fun x hx => by
      simp only [Bool.true_and, decide_eq_decide]
      exact ⟨fun h => lt_of_le_of_ne h fun hk => habs x hx hk.symm, le_of_lt⟩
  rw [h2, h3] at h1
  exact h1

theorem entriesAt_insEntry_lt {K : Type} [LinearOrder K] {L : List (Entry K)}
    (hs : L.Pairwise fun a b => a.key < b.key) {key : K} (habs : ∀ e ∈ L, e.key ≠ key)
    {newId h lvl : Nat} (hlvl : lvl < h) :
    entriesAt (insEntry L (Entry.mk newId key h)) lvl =
      belowAt L lvl key ++ Entry.mk newId key h :: fromKey L lvl key := by
  have hA : ((L.filter fun x => decide (x.key < key)).filter
      fun e => decide (lvl < e.ht)) = belowAt L lvl key := by
    rw [List.filter_filter, belowAt]
  have hB : ((L.filter fun x => decide (key < x.key)).filter
      fun e => decide (lvl < e.ht)) = fromKey L lvl key := by
    rw [List.filter_filter, fromKey]
    apply List.filter_congr
    intro x hx
    congr 1
    exact decide_eq_decide.mpr
      ⟨le_of_lt, fun h2 => lt_of_le_of_ne h2 fun hk => habs x hx hk.symm⟩
  rw [insEntry, entriesAt, List.filter_append, List.filter_cons]
  rw [if_pos (by simp only [decide_eq_true_eq]; exact hlvl), hA, hB]

theorem entriesAt_insEntry_ge {K : Type} [LinearOrder K] {L : List (Entry K)}
    (hs : L.Pairwise fun a b => a.key < b.key) {key : K} (habs : ∀ e ∈ L, e.key ≠ key)
    {newId h lvl : Nat} (hlvl : h ≤ lvl) :
    entriesAt (insEntry L (Entry.mk newId key h)) lvl = entriesAt L lvl := by
  have hA : ((L.filter fun x => decide (x.key < key)).filter
      fun e => decide (lvl < e.ht)) =
      L.filter fun e => decide (lvl < e.ht) && decide (e.key < key) := by
    rw [List.filter_filter]
  have hB : ((L.filter fun x => decide (key < x.key)).filter
      fun e => decide (lvl < e.ht)) =
      L.filter fun e => decide (lvl < e.ht) && decide (key ≤ e.key) := by
    rw [List.filter_filter]
    apply List.filter_congr
    intro x hx
    congr 1
    exact decide_eq_decide.mpr
      ⟨le_of_lt, fun h2 => lt_of_le_of_ne h2 fun hk => habs x hx hk.symm⟩
  rw [insEntry, entriesAt, List.filter_append, List.filter_cons]
  rw [if_neg (by simp only [decide_eq_true_eq]; omega), hA, hB]
  exact (entriesAt_split hs lvl key).symm

theorem chain_transport {K : Type} {heap0 heap1 : List (SkipNode K)}
    (hsh : HeapShapeEq heap0 heap1) (hls : LinksSameFrom heap0 heap1 lvl)
    {l : Nat} (hl : lvl ≤ l) {es : List (Entry K)} {p q : Option Nat}
    (hch : ChainSeg heap0 l p es q) : ChainSeg heap1 l p es q := by
  refine chainSeg_congr ?_ hch
  intro e _ n hn
  obtain ⟨n', hn', hk', hl'⟩ := hsh.2 e.id n hn
  exact ⟨n', hn', hk', hl', hls e.id n n' hn hn' l hl⟩

theorem headerLink_transport {K : Type} {heap0 heap1 : List (SkipNode K)}
    (hsh : HeapShapeEq heap0 heap1) (hls : LinksSameFrom heap0 heap1 lvl)
    {hd : SkipNode K} (hhd : heap0[0]? = some hd) {l : Nat} (hl : lvl ≤ l) :
    headerLink heap1 l = headerLink heap0 l := by
  obtain ⟨hd', hhd', -, -⟩ := hsh.2 0 hd hhd
  rw [headerLink, headerLink, hhd, hhd']
  exact hls 0 hd hd' hhd hhd' l hl

theorem links_set_getD_ne {i j : Nat} (links : List (Option Nat)) (v : Option Nat)
    (h : i ≠ j) : (links.set i v).getD j none = links.getD j none := by
  simp [List.getD_eq_getElem?_getD, List.getElem?_set_ne h]

theorem links_set_getD_self {i : Nat} (links : List (Option Nat)) (v : Option Nat)
    (h : i < links.length) : (links.set i v).getD i none = v := by
  simp [List.getD_eq_getElem?_getD, List.getElem?_set_self h]

theorem spliceInner_run {K : Type} [LinearOrder K] {s : SkipState K} {L : List (Entry K)}
    {key : K} (hr : Rep s L) (habs : ∀ e ∈ L, e.key ≠ key) {h : Nat}
    (hhm : h ≤ s.maxHeight) {q : Nat} {qn0 : SkipNode K}
    (hq : s.heap[q]? = some qn0) :
    ∀ (cnt lvl : Nat) (heapCur : List (SkipNode K)),
      min h qn0.links.length - lvl ≤ cnt →
      (∀ l, lvl ≤ l → l < qn0.links.length → predIdAt L l key = q) →
      HeapShapeEq (s.heap ++ [SkipNode.mk key (List.replicate h none)]) heapCur →
      LinksSameFrom (s.heap ++ [SkipNode.mk key (List.replicate h none)]) heapCur lvl →
      (∀ l, l < lvl →
        ChainSeg heapCur l (headerLink heapCur l)
          (entriesAt (insEntry L (Entry.mk s.heap.length key h)) l) none) →
      lvl ≤ min h qn0.links.length →
      ∃ heap2,
        spliceInner s.heap.length q h heapCur lvl =
          Except.ok (heap2,
            expectedEvs (fun l => predIdAt L l key)
              (fun l => linkOf (s.heap ++ [SkipNode.mk key (List.replicate h none)])
                (predIdAt L l key) l)
              s.heap.length lvl (min h qn0.links.length - lvl),
            min h qn0.links.length) ∧
        HeapShapeEq (s.heap ++ [SkipNode.mk key (List.replicate h none)]) heap2 ∧
        LinksSameFrom (s.heap ++ [SkipNode.mk key (List.replicate h none)]) heap2
          (min h qn0.links.length) ∧
        (∀ l, l < min h qn0.links.length →
          ChainSeg heap2 l (headerLink heap2 l)
            (entriesAt (insEntry L (Entry.mk s.heap.length key h)) l) none) := by
  obtain ⟨hd0, hhd0, hlen0⟩ := hr.hdr
  have hpos : 0 < s.heap.length := (List.getElem?_eq_some.mp hhd0).1
  have hql : q < s.heap.length := (List.getElem?_eq_some.mp hq).1
  have hq0 : (s.heap ++ [SkipNode.mk key (List.replicate h none)])[q]? = some qn0 := by
    rw [List.getElem?_append_left hql]; exact hq
  have hqne : q ≠ s.heap.length := Nat.ne_of_lt hql
  have hnew0 : (s.heap ++ [SkipNode.mk key (List.replicate h none)])[s.heap.length]? =
      some (SkipNode.mk key (List.replicate h none)) := List.getElem?_concat_length _ _
  intro cnt
  induction cnt with
  | zero =>
    intro lvl heapCur hcnt hband hshape hup hdone hle
    have hstop : lvl = min h qn0.links.length := by omega
    obtain ⟨nd, hnd, hndk, hndl⟩ := hshape.2 q qn0 hq0
    have hng : ¬ (lvl < min h nd.Height) := by
      rw [SkipNode.Height, hndl]; omega
    refine ⟨heapCur, ?_, hshape, by rw [← hstop]; exact hup, ?_⟩
    · conv_lhs => rw [spliceInner]
      have hz : min h qn0.links.length - lvl = 0 := by omega
      rw [hz]
      simp only [expectedEvs]
      simp [nodeAt, hnd, ok_bind, hng, ← hstop]
      intro h1 h2
      exact absurd (lt_min_iff.mpr ⟨h1, h2⟩) hng
    · intro l hl
      rw [← hstop] at hl
      exact hdone l hl
  | succ cnt ih =>
    intro lvl heapCur hcnt hband hshape hup hdone hle
    obtain ⟨nd, hnd, hndk, hndl⟩ := hshape.2 q qn0 hq0
    by_cases hstop : lvl < min h qn0.links.length
    case neg =>
      have hstopEq : lvl = min h qn0.links.length := by omega
      have hng : ¬ (lvl < min h nd.Height) := by
        rw [SkipNode.Height, hndl]; omega
      refine ⟨heapCur, ?_, hshape, by rw [← hstopEq]; exact hup, ?_⟩
      · conv_lhs => rw [spliceInner]
        have hz : min h qn0.links.length - lvl = 0 := by omega
        rw [hz]
        simp only [expectedEvs]
        simp [nodeAt, hnd, ok_bind, hng, ← hstopEq]
        intro h1 h2
        exact absurd (lt_min_iff.mpr ⟨h1, h2⟩) hng
      · intro l hl
        rw [← hstopEq] at hl
        exact hdone l hl
    case pos =>
    have hg1 : lvl < h := lt_of_lt_of_le hstop (min_le_left _ _)
    have hg2q : lvl < qn0.links.length := lt_of_lt_of_le hstop (min_le_right _ _)
    have hlt1 : lvl < nd.links.length := by rw [hndl]; exact hg2q
    obtain ⟨newNd, hnewNd, hnewk, hnewl⟩ := hshape.2 _ _ hnew0
    have hnewlh : newNd.links.length = h := by rw [hnewl]; simp
    have hlt2 : lvl < newNd.links.length := by rw [hnewlh]; exact hg1
    have hguard : lvl < min h nd.Height := by
      rw [SkipNode.Height, hndl]; exact hstop
    have hheap1new :
        (heapCur.set q { nd with links := nd.links.set lvl (some s.heap.length) })[s.heap.length]? =
          some newNd := by
      rw [List.getElem?_set_ne hqne]; exact hnewNd
    have hstep : spliceInner s.heap.length q h heapCur lvl = (do
        let r ← spliceInner s.heap.length q h
          ((heapCur.set q { nd with links := nd.links.set lvl (some s.heap.length) }).set
            s.heap.length
            { newNd with links := newNd.links.set lvl (nd.links.getD lvl none) }) (lvl + 1)
        Except.ok (r.1, SetEv.mk q lvl (some s.heap.length) ::
          SetEv.mk s.heap.length lvl (nd.links.getD lvl none) :: r.2.1, r.2.2)) := by
      have hg2 := (lt_min_iff.mp hguard).2
      conv_lhs => rw [spliceInner]
      simp [nodeAt, hnd, ok_bind, hguard, SkipNode.Next, SkipNode.SetNext,
        not_le.mpr hlt1, not_le.mpr hlt2, hheap1new, hg1, hg2, not_le.mpr hg2]
    set nd' : SkipNode K := { nd with links := nd.links.set lvl (some s.heap.length) }
      with hnddefn
    set newNd' : SkipNode K := { newNd with links := newNd.links.set lvl (nd.links.getD lvl none) }
      with hnewNddefn
    set heap2 : List (SkipNode K) := (heapCur.set q nd').set s.heap.length newNd'
      with hheap2def
    have hculen : q < heapCur.length := (List.getElem?_eq_some.mp hnd).1
    have hnewltCur : s.heap.length < heapCur.length := (List.getElem?_eq_some.mp hnewNd).1
    have h2q : heap2[q]? = some nd' := by
      rw [hheap2def, List.getElem?_set_ne (Ne.symm hqne)]
      exact List.getElem?_set_self hculen
    have h2new : heap2[s.heap.length]? = some newNd' :=
      List.getElem?_set_self (by rw [List.length_set]; exact hnewltCur)
    have h2other : ∀ p, p ≠ q → p ≠ s.heap.length → heap2[p]? = heapCur[p]? := by
      intro p h1 h2
      rw [hheap2def, List.getElem?_set_ne (Ne.symm h2), List.getElem?_set_ne (Ne.symm h1)]
    have hshape2 : HeapShapeEq (s.heap ++ [SkipNode.mk key (List.replicate h none)]) heap2 := by
      refine ⟨?_, ?_⟩
      · rw [hheap2def]
        simp only [List.length_set]
        exact hshape.1
      · intro p n hp
        by_cases hpq : p = q
        · subst hpq
          rw [hq0, Option.some.injEq] at hp
          subst hp
          refine ⟨nd', h2q, ?_, ?_⟩
          · rw [hnddefn]; exact hndk
          · rw [hnddefn]; simp only [List.length_set]; exact hndl
        · by_cases hpn : p = s.heap.length
          · subst hpn
            rw [hnew0, Option.some.injEq] at hp
            subst hp
            refine ⟨newNd', h2new, ?_, ?_⟩
            · rw [hnewNddefn]; exact hnewk
            · rw [hnewNddefn]; simp only [List.length_set]; exact hnewl
          · obtain ⟨n', hn', hk', hl'⟩ := hshape.2 p n hp
            exact ⟨n', by rw [h2other p hpq hpn]; exact hn', hk', hl'⟩
    have hup2 : LinksSameFrom (s.heap ++ [SkipNode.mk key (List.replicate h none)]) heap2
        (lvl + 1) := by
      intro p n n' hp hp2 l hl
      by_cases hpq : p = q
      · rw [hpq] at hp hp2
        rw [hq0, Option.some.injEq] at hp
        subst hp
        rw [h2q, Option.some.injEq] at hp2
        subst hp2
        rw [hnddefn]
        show (nd.links.set lvl (some s.heap.length)).getD l none = _
        rw [links_set_getD_ne _ _ (by omega)]
        exact hup q _ nd hq0 hnd l (by omega)
      · by_cases hpn : p = s.heap.length
        · rw [hpn] at hp hp2
          rw [hnew0, Option.some.injEq] at hp
          subst hp
          rw [h2new, Option.some.injEq] at hp2
          subst hp2
          rw [hnewNddefn]
          show (newNd.links.set lvl (nd.links.getD lvl none)).getD l none = _
          rw [links_set_getD_ne _ _ (by omega)]
          exact hup _ _ newNd hnew0 hnewNd l (by omega)
        · rw [h2other p hpq hpn] at hp2
          exact hup p n n' hp hp2 l (by omega)
    have hh0 : ∀ l', l' ≠ lvl → headerLink heap2 l' = headerLink heapCur l' := by
      intro l' hl'
      by_cases hq00 : q = 0
      · subst hq00
        rw [headerLink, headerLink, h2q, hnd, hnddefn]
        show (nd.links.set lvl (some s.heap.length)).getD l' none = _
        rw [links_set_getD_ne _ _ (fun hh => hl' hh.symm)]
      · rw [headerLink, headerLink, h2other 0 (fun hh => hq00 hh.symm) (by omega)]
    have hagreeOff : ∀ l', l' ≠ lvl → ∀ (e : Entry K), ∀ n, heapCur[e.id]? = some n →
        ∃ n', heap2[e.id]? = some n' ∧ n'.key = n.key ∧ n'.links.length = n.links.length ∧
          n'.links.getD l' none = n.links.getD l' none := by
      intro l' hl' e n hn
      by_cases hpq : e.id = q
      · rw [hpq] at hn ⊢
        rw [hnd, Option.some.injEq] at hn
        subst hn
        refine ⟨nd', h2q, by rw [hnddefn], ?_, ?_⟩
        · rw [hnddefn]; simp only [List.length_set]
        · rw [hnddefn]
          show (nd.links.set lvl (some s.heap.length)).getD l' none = _
          exact links_set_getD_ne _ _ (fun hh => hl' hh.symm)
      · by_cases hpn : e.id = s.heap.length
        · rw [hpn] at hn ⊢
          rw [hnewNd, Option.some.injEq] at hn
          subst hn
          refine ⟨newNd', h2new, by rw [hnewNddefn], ?_, ?_⟩
          · rw [hnewNddefn]; simp only [List.length_set]
          · rw [hnewNddefn]
            show (newNd.links.set lvl (nd.links.getD lvl none)).getD l' none = _
            exact links_set_getD_ne _ _ (fun hh => hl' hh.symm)
        · exact ⟨n, by rw [h2other e.id hpq hpn]; exact hn, rfl, rfl, rfl⟩
    have hdoneOld : ∀ l, l < lvl →
        ChainSeg heap2 l (headerLink heap2 l)
          (entriesAt (insEntry L (Entry.mk s.heap.length key h)) l) none := by
      intro l hl
      rw [hh0 l (by omega)]
      exact chainSeg_congr (fun e _ n hn => hagreeOff l (by omega) e n hn) (hdone l hl)
    have hlvlmax : lvl < s.maxHeight := lt_of_lt_of_le hg1 hhm
    have hchCur : ChainSeg heapCur lvl (headerLink heapCur lvl) (entriesAt L lvl) none := by
      have h0' : ChainSeg (s.heap ++ [SkipNode.mk key (List.replicate h none)]) lvl
          (headerLink s.heap lvl) (entriesAt L lvl) none :=
        chainSeg_append_elt (hr.chains lvl hlvlmax)
      rw [← headerLink_append hpos lvl] at h0'
      have hT := headerLink_transport hshape hup
        (by rw [List.getElem?_append_left hpos]; exact hhd0) (le_refl lvl)
      have := chain_transport hshape hup (le_refl lvl) h0'
      rwa [← hT] at this
    rw [entriesAt_split hr.sorted lvl key] at hchCur
    obtain ⟨m, hA, hB⟩ := chainSeg_append.mp hchCur
    have hqpred : predIdAt L lvl key = q := hband lvl (le_refl _) hg2q
    have hBset : ∀ b ∈ fromKey L lvl key, b.id ≠ q ∧ b.id ≠ s.heap.length := by
      intro b hb
      obtain ⟨hb1, hb2, hb3⟩ := mem_fromKey.mp hb
      refine ⟨?_, Nat.ne_of_lt (rep_id_lt hr hb1)⟩
      intro hbq
      cases hQ : predE L lvl key with
      | none => exact hr.nz b hb1 (by rw [hbq, ← hqpred]; simp [predIdAt, hQ])
      | some e =>
        obtain ⟨he, -, hek⟩ := predE_mem hQ
        have hqe : q = e.id := by rw [← hqpred]; simp [predIdAt, hQ]
        have hbe : b = e := rep_id_inj hr hb1 he (by rw [hbq, hqe])
        rw [hbe] at hb3
        exact absurd hek (not_lt.mpr hb3)
    have hBtrans : ChainSeg heap2 lvl m (fromKey L lvl key) none := by
      refine chainSeg_congr ?_ hB
      intro e he n hn
      obtain ⟨hne1, hne2⟩ := hBset e he
      exact ⟨n, by rw [h2other e.id hne1 hne2]; exact hn, rfl, rfl, rfl⟩
    have hnewkey : newNd'.key = key := by rw [hnewNddefn]; exact hnewk
    have hnewlen : newNd'.links.length = h := by
      rw [hnewNddefn]
      simp only [List.length_set]
      exact hnewlh
    have hnewgetD : newNd'.links.getD lvl none = nd.links.getD lvl none := by
      rw [hnewNddefn]
      exact links_set_getD_self _ _ hlt2
    have hdoneNew : ChainSeg heap2 lvl (headerLink heap2 lvl)
        (entriesAt (insEntry L (Entry.mk s.heap.length key h)) lvl) none := by
      rw [entriesAt_insEntry_lt hr.sorted habs hg1]
      cases hQ : predE L lvl key with
      | none =>
        have hq0' : q = 0 := by rw [← hqpred]; simp [predIdAt, hQ]
        have hAnil : belowAt L lvl key = [] := List.getLast?_eq_none_iff.mp hQ
        rw [hAnil] at hA ⊢
        have hm : headerLink heapCur lvl = m := hA
        have hnd0 : heapCur[0]? = some nd := by rw [← hq0']; exact hnd
        have hml : m = nd.links.getD lvl none := by
          rw [← hm, headerLink, hnd0]
        have h2q0 : heap2[0]? = some nd' := by rw [← hq0']; exact h2q
        have hhl2 : headerLink heap2 lvl = some s.heap.length := by
          rw [headerLink, h2q0, hnddefn]
          exact links_set_getD_self _ _ hlt1
        rw [hhl2, List.nil_append]
        refine ⟨rfl, hg1, newNd', h2new, hnewkey, hnewlen, ?_⟩
        rw [hnewgetD, ← hml]
        exact hBtrans
      | some e =>
        have hqe : q = e.id := by rw [← hqpred]; simp [predIdAt, hQ]
        obtain ⟨he, hlte, hek⟩ := predE_mem hQ
        have hAlast : (belowAt L lvl key).getLast? = some e := hQ
        obtain ⟨ne_, hne_, hnek, hnel, hneh, hnem⟩ := chainSeg_last hA hAlast
        have hnd_eq : ne_ = nd := by
          rw [← hqe] at hne_
          rw [hnd, Option.some.injEq] at hne_
          exact hne_.symm
        have hml : m = nd.links.getD lvl none := by
          rw [← hnd_eq]
          exact hnem.symm
        have hq0ne : q ≠ 0 := by rw [hqe]; exact fun hh => hr.nz e he (hh ▸ rfl)
        have hhl2 : headerLink heap2 lvl = headerLink heapCur lvl := by
          rw [headerLink, headerLink, h2other 0 (fun hh => hq0ne hh.symm) (by omega)]
        rw [hhl2]
        refine chainSeg_append.mpr ⟨some s.heap.length, ?_, ?_⟩
        · refine chainSeg_retarget hA hAlast ?_ ?_ ?_
          · exact (rep_ids_nodup hr).sublist (List.Sublist.map _ (List.filter_sublist _))
          · intro x hx hxne n hn
            have hxq : x.id ≠ q := by rw [hqe]; exact hxne
            have hxnew : x.id ≠ s.heap.length :=
              Nat.ne_of_lt (rep_id_lt hr (mem_belowAt.mp hx).1)
            exact ⟨n, by rw [h2other x.id hxq hxnew]; exact hn, rfl, rfl, rfl⟩
          · intro n hn
            rw [← hqe, hnd, Option.some.injEq] at hn
            subst hn
            refine ⟨nd', by rw [← hqe]; exact h2q, by rw [hnddefn], ?_, ?_⟩
            · rw [hnddefn]; simp only [List.length_set]
            · rw [hnddefn]
              exact links_set_getD_self _ _ hlt1
        · refine ⟨rfl, hg1, newNd', h2new, hnewkey, hnewlen, ?_⟩
          rw [hnewgetD, ← hml]
          exact hBtrans
    have hdoneAll : ∀ l, l < lvl + 1 →
        ChainSeg heap2 l (headerLink heap2 l)
          (entriesAt (insEntry L (Entry.mk s.heap.length key h)) l) none := by
      intro l hl
      rcases Nat.lt_or_ge l lvl with h1 | h1
      · exact hdoneOld l h1
      · have hleq : l = lvl := by omega
        rw [hleq]
        exact hdoneNew
    obtain ⟨heap3, hrun3, hsh3, hls3, hdone3⟩ :=
      ih (lvl + 1) heap2 (by omega) (fun l hl hlen => hband l (by omega) hlen) hshape2 hup2
        hdoneAll (by omega)
    refine ⟨heap3, ?_, hsh3, hls3, hdone3⟩
    rw [hstep, hrun3, ok_bind]
    have hcount : min h qn0.links.length - lvl = (min h qn0.links.length - (lvl + 1)) + 1 := by
      omega
    rw [hcount]
    simp only [expectedEvs]
    have hlnk : linkOf (s.heap ++ [SkipNode.mk key (List.replicate h none)])
        (predIdAt L lvl key) lvl = nd.links.getD lvl none := by
      rw [hqpred, linkOf, hq0]
      exact (hup q qn0 nd hq0 hnd lvl (le_refl _)).symm
    rw [hlnk, hqpred]

theorem spliceOuter_run {K : Type} [LinearOrder K] {s : SkipState K} {L : List (Entry K)}
    {key : K} (hr : Rep s L) (habs : ∀ e ∈ L, e.key ≠ key) {h : Nat}
    (hhm : h ≤ s.maxHeight) :
    ∀ (stack : List Nat) (lvl : Nat) (heapCur : List (SkipNode K)),
      lvl ≤ h →
      (lvl < h → StackOK s.heap L key s.maxHeight stack lvl) →
      HeapShapeEq (s.heap ++ [SkipNode.mk key (List.replicate h none)]) heapCur →
      LinksSameFrom (s.heap ++ [SkipNode.mk key (List.replicate h none)]) heapCur lvl →
      (∀ l, l < lvl →
        ChainSeg heapCur l (headerLink heapCur l)
          (entriesAt (insEntry L (Entry.mk s.heap.length key h)) l) none) →
      ∃ heapF,
        spliceOuter s.heap.length h stack heapCur lvl =
          Except.ok (heapF,
            expectedEvs (fun l => predIdAt L l key)
              (fun l => linkOf (s.heap ++ [SkipNode.mk key (List.replicate h none)])
                (predIdAt L l key) l)
              s.heap.length lvl (h - lvl)) ∧
        HeapShapeEq (s.heap ++ [SkipNode.mk key (List.replicate h none)]) heapF ∧
        LinksSameFrom (s.heap ++ [SkipNode.mk key (List.replicate h none)]) heapF h ∧
        (∀ l, l < h →
          ChainSeg heapF l (headerLink heapF l)
            (entriesAt (insEntry L (Entry.mk s.heap.length key h)) l) none) := by
  intro stack
  induction stack with
  | nil =>
    intro lvl heapCur hle hok hshape hup hdone
    have hlh : ¬ lvl < h := by
      intro hlh
      have := hok hlh
      have htop : s.maxHeight ≤ lvl := this
      omega
    have hlvl : lvl = h := by omega
    refine ⟨heapCur, ?_, hshape, hlvl ▸ hup, fun l hl => hdone l (hlvl ▸ hl)⟩
    rw [spliceOuter, if_neg hlh]
    have hz : h - lvl = 0 := by omega
    rw [hz]
    rfl
  | cons q rest ih =>
    intro lvl heapCur hle hok hshape hup hdone
    by_cases hlh : lvl < h
    · obtain ⟨qn0, hqn0, hlvl_len, hlen_le, hband, hrest⟩ := hok hlh
      have hlemin : lvl ≤ min h qn0.links.length := le_min (le_of_lt hlh) (le_of_lt hlvl_len)
      obtain ⟨heap2, hrun2, hsh2, hls2, hdone2⟩ :=
        spliceInner_run hr habs hhm hqn0 (min h qn0.links.length - lvl) lvl heapCur
          (le_refl _) hband hshape hup hdone hlemin
      have hminh : min h qn0.links.length ≤ h := min_le_left _ _
      obtain ⟨heapF, hrunF, hshF, hlsF, hdoneF⟩ :=
        ih (min h qn0.links.length) heap2 hminh
          (by
            intro hlt
            have hq : min h qn0.links.length = qn0.links.length := by omega
            rw [hq]
            exact hrest)
          hsh2 hls2 hdone2
      refine ⟨heapF, ?_, hshF, hlsF, hdoneF⟩
      rw [spliceOuter, if_pos hlh, hrun2, ok_bind, hrunF, ok_bind]
      have := expectedEvs_append (fun l => predIdAt L l key)
        (fun l => linkOf (s.heap ++ [SkipNode.mk key (List.replicate h none)])
          (predIdAt L l key) l)
        s.heap.length (min h qn0.links.length - lvl) lvl (h - min h qn0.links.length)
      have harith : lvl + (min h qn0.links.length - lvl) = min h qn0.links.length := by omega
      rw [harith] at this
      have harith2 : (min h qn0.links.length - lvl) + (h - min h qn0.links.length) =
          h - lvl := by omega
      rw [harith2] at this
      rw [this]
    · have hlvl : lvl = h := by omega
      refine ⟨heapCur, ?_, hshape, hlvl ▸ hup, fun l hl => hdone l (hlvl ▸ hl)⟩
      rw [spliceOuter, if_neg hlh]
      have hz : h - lvl = 0 := by omega
      rw [hz]
      rfl

/-! ### The height sampler -/

theorem randomHeightAux_spec (m : Nat) (rng : Nat → Nat) :
    ∀ (bound idx height : Nat), height ≤ m → m - height = bound →
      (randomHeightAux m rng idx height).1 = min m (height + trialStreak rng idx bound) := by
  intro bound
  induction bound with
  | zero =>
    intro idx height hle hb
    have hm : height = m := by omega
    rw [randomHeightAux, if_neg (by omega)]
    simp [trialStreak, hm]
  | succ b ihb =>
    intro idx height hle hb
    have hlt : height < m := by omega
    rw [randomHeightAux, if_pos hlt]
    by_cases h4 : rng idx % 4 = 0
    · rw [if_pos (by simp [h4])]
      rw [ihb (idx + 1) (height + 1) (by omega) (by omega)]
      have : trialStreak rng idx (b + 1) = trialStreak rng (idx + 1) b + 1 := by
        rw [trialStreak, if_pos (by simp [h4])]
      rw [this]
      congr 1
      omega
    · rw [if_neg (by simp [h4])]
      have : trialStreak rng idx (b + 1) = 0 := by
        rw [trialStreak, if_neg (by simp [h4])]
      rw [this]
      simp
      omega

theorem randomHeight_spec (m : Nat) (rng : Nat → Nat) (idx : Nat) (hm : 1 ≤ m) :
    (RandomHeight m rng idx).1 = min m (1 + trialStreak rng idx (m - 1)) := by
  rw [RandomHeight, randomHeightAux_spec m rng (m - 1) idx 1 hm rfl]

theorem randomHeight_bounds (m : Nat) (rng : Nat → Nat) (idx : Nat) (hm : 1 ≤ m) :
    1 ≤ (RandomHeight m rng idx).1 ∧ (RandomHeight m rng idx).1 ≤ m := by
  rw [randomHeight_spec m rng idx hm]
  exact ⟨le_min hm (by omega), min_le_left _ _⟩

/-! ### Insert -/

theorem insEntry_sorted {K : Type} [LinearOrder K] {L : List (Entry K)}
    (hs : L.Pairwise fun a b => a.key < b.key) (e : Entry K) :
    (insEntry L e).Pairwise fun a b => a.key < b.key := by
  rw [insEntry, List.pairwise_append]
  refine ⟨hs.filter _, ?_, ?_⟩
  · rw [List.pairwise_cons]
    refine ⟨?_, hs.filter _⟩
    intro b hb
    have := List.of_mem_filter hb
    simpa using this
  · intro a ha b hb
    have ha' : a.key < e.key := by simpa using List.of_mem_filter ha
    rcases List.mem_cons.mp hb with rfl | hb'
    · exact ha'
    · have hb'' : e.key < b.key := by simpa using List.of_mem_filter hb'
      exact lt_trans ha' hb''

theorem insEntry_length {K : Type} [LinearOrder K] {L : List (Entry K)}
    (hs : L.Pairwise fun a b => a.key < b.key) {e : Entry K}
    (habs : ∀ x ∈ L, x.key ≠ e.key) :
    (insEntry L e).length = L.length + 1 := by
  have hsplit := absent_split hs habs
  rw [insEntry]
  rw [List.length_append, List.length_cons]
  conv_rhs => rw [hsplit]
  rw [List.length_append]
  omega

theorem mem_insEntry {K : Type} [LinearOrder K] {L : List (Entry K)}
    (hs : L.Pairwise fun a b => a.key < b.key) {e : Entry K}
    (habs : ∀ x ∈ L, x.key ≠ e.key) {x : Entry K} :
    x ∈ insEntry L e ↔ x ∈ L ∨ x = e := by
  rw [insEntry]
  simp only [List.mem_append, List.mem_cons, List.mem_filter]
  constructor
  · rintro (⟨hx, -⟩ | rfl | ⟨hx, -⟩)
    · exact Or.inl hx
    · exact Or.inr rfl
    · exact Or.inl hx
  · rintro (hx | rfl)
    · rcases lt_trichotomy x.key e.key with hlt | heq | hgt
      · exact Or.inl ⟨hx, by simp [hlt]⟩
      · exact absurd heq (habs x hx)
      · exact Or.inr (Or.inr ⟨hx, by simp [hgt]⟩)
    · exact Or.inr (Or.inl rfl)

/-- Successful insertion: the abstraction gains exactly the new entry, the
live count rises by one, and the recorded `SetNext` calls are, per level
from 0 to the sampled height minus one, first the scan predecessor's
reference pointed at the new node and then the new node's reference set to
the predecessor's previous forward reference. -/
theorem insertRec_spec {K : Type} [LinearOrder K] {s : SkipState K} {L : List (Entry K)}
    (hr : Rep s L) {key : K} (habs : ∀ e ∈ L, e.key ≠ key) :
    ∃ heapF,
      insertRec s key = Except.ok (true,
        ({ s with
          heap := heapF
          size := s.size + 1
          rngIdx := (RandomHeight s.maxHeight s.rng s.rngIdx).2 } : SkipState K),
        expectedEvs (fun l => predIdAt L l key)
          (fun l => linkOf
            (s.heap ++ [SkipNode.mk key
              (List.replicate (RandomHeight s.maxHeight s.rng s.rngIdx).1 none)])
            (predIdAt L l key) l)
          s.heap.length 0 (RandomHeight s.maxHeight s.rng s.rngIdx).1) ∧
      Rep ({ s with
          heap := heapF
          size := s.size + 1
          rngIdx := (RandomHeight s.maxHeight s.rng s.rngIdx).2 } : SkipState K)
        (insEntry L (Entry.mk s.heap.length key
          (RandomHeight s.maxHeight s.rng s.rngIdx).1)) := by
  obtain ⟨hh1, hhm⟩ := randomHeight_bounds s.maxHeight s.rng s.rngIdx hr.mh_pos
  set h : Nat := (RandomHeight s.maxHeight s.rng s.rngIdx).1 with hdef
  obtain ⟨hd0, hhd0, hlen0⟩ := hr.hdr
  have hpos : 0 < s.heap.length := (List.getElem?_eq_some.mp hhd0).1
  have hcont : s.Contains key = Except.ok false := by
    rw [contains_spec hr key]
    congr 1
    rw [decide_eq_false_iff_not]
    rintro ⟨e, he, hk⟩
    exact habs e he hk
  have hpid : predIdAt L s.maxHeight key = 0 := by
    simp [predIdAt, predE_top hr key (le_refl _)]
  have hok0 : StackOK s.heap L key s.maxHeight [] s.maxHeight := le_refl _
  obtain ⟨stack, hscan, hokS⟩ := insertScan_run hr habs s.maxHeight (le_refl _) [] hok0
  rw [hpid] at hscan
  have hshape0 : HeapShapeEq (s.heap ++ [SkipNode.mk key (List.replicate h none)])
      (s.heap ++ [SkipNode.mk key (List.replicate h none)]) :=
    ⟨rfl, fun p n hp => ⟨n, hp, rfl, rfl⟩⟩
  have hup0 : LinksSameFrom (s.heap ++ [SkipNode.mk key (List.replicate h none)])
      (s.heap ++ [SkipNode.mk key (List.replicate h none)]) 0 := by
    intro p n n' hp hp2 l hl
    rw [hp, Option.some.injEq] at hp2
    rw [hp2]
  obtain ⟨heapF, hrunOuter, hshF, hlsF, hdoneF⟩ :=
    spliceOuter_run hr habs hhm stack 0 (s.heap ++ [SkipNode.mk key (List.replicate h none)])
      (Nat.zero_le _) (fun _ => hokS) hshape0 hup0 (fun l hl => absurd hl (by omega))
  refine ⟨heapF, ?_, ?_⟩
  · rw [insertRec]
    simp only [hcont, ok_bind, Bool.false_eq_true, if_false, hscan, ← hdef]
    rw [hrunOuter, ok_bind, Nat.sub_zero]
  · constructor
    · exact hr.mh_pos
    · obtain ⟨hdF, hhdF, hkF, hlF⟩ := hshF.2 0 hd0
        (by rw [List.getElem?_append_left hpos]; exact hhd0)
      exact ⟨hdF, hhdF, by rw [hlF]; exact hlen0⟩
    · exact insEntry_sorted hr.sorted _
    · intro e he
      rcases (mem_insEntry hr.sorted (fun x hx => habs x hx)).mp he with he' | rfl
      · exact hr.nz e he'
      · show s.heap.length ≠ 0
        omega
    · intro e he
      rcases (mem_insEntry hr.sorted (fun x hx => habs x hx)).mp he with he' | rfl
      · exact hr.ht_le e he'
      · exact ⟨hh1, hhm⟩
    · intro l hl
      by_cases hlh : l < h
      · exact hdoneF l hlh
      · rw [entriesAt_insEntry_ge hr.sorted habs (by omega)]
        have h0' : ChainSeg (s.heap ++ [SkipNode.mk key (List.replicate h none)]) l
            (headerLink s.heap l) (entriesAt L l) none :=
          chainSeg_append_elt (hr.chains l hl)
        rw [← headerLink_append hpos l] at h0'
        have hT := headerLink_transport hshF hlsF
          (by rw [List.getElem?_append_left hpos]; exact hhd0) (le_of_not_lt hlh)
        have := chain_transport hshF hlsF (le_of_not_lt hlh) h0'
        rwa [← hT] at this
    · show s.size + 1 = _
      rw [hr.sz, insEntry_length hr.sorted (fun x hx => habs x hx)]

/-! ### Erase -/

theorem entriesAt_delKey_lt {K : Type} [LinearOrder K] {L : List (Entry K)}
    (hs : L.Pairwise fun a b => a.key < b.key) (key : K) (lvl : Nat) :
    entriesAt (delKey L key) lvl = belowAt L lvl key ++ aboveAt L lvl key := by
  have h0 : entriesAt (delKey L key) lvl =
      L.filter fun e => decide (lvl < e.ht) && decide (e.key ≠ key) := by
    rw [entriesAt, delKey, List.filter_filter]
  rw [h0, filter_split_key hs (fun e => decide (lvl < e.ht) && decide (e.key ≠ key)) key]
  congr 1
  · rw [belowAt]
    apply List.filter_congr
    intro x _
    by_cases hx : x.key < key
    · simp [hx, ne_of_lt hx]
    · simp [hx]
  · rw [aboveAt]
    apply List.filter_congr
    intro x _
    by_cases hq : lvl < x.ht
    · by_cases hx : key < x.key
      · simp [hq, hx, le_of_lt hx, (ne_of_gt hx : x.key ≠ key)]
      · by_cases hk : x.key = key
        · simp [hq, hx, hk]
        · simp [hq, hx, hk, not_le.mpr (lt_of_le_of_ne (not_lt.mp hx) hk)]
    · simp [hq]

theorem entriesAt_delKey_ge {K : Type} [LinearOrder K] {L : List (Entry K)}
    (hs : L.Pairwise fun a b => a.key < b.key) {te : Entry K} (hte : te ∈ L)
    {key : K} (htek : te.key = key) {lvl : Nat} (hlvl : te.ht ≤ lvl) :
    entriesAt (delKey L key) lvl = entriesAt L lvl := by
  rw [entriesAt, delKey, List.filter_filter, entriesAt]
  apply List.filter_congr
  intro x hx
  by_cases hq : lvl < x.ht
  · have hxk : x.key ≠ key := by
      intro hk
      have hxe : x = te := sorted_key_inj hs hx hte (by rw [hk, htek])
      rw [hxe] at hq
      omega
    simp [hq, hxk]
  · simp [hq]

theorem delKey_length {K : Type} [LinearOrder K] {L : List (Entry K)}
    (hs : L.Pairwise fun a b => a.key < b.key) {te : Entry K} (hte : te ∈ L)
    {key : K} (htek : te.key = key) (hpos : ∀ e ∈ L, 1 ≤ e.ht) :
    (delKey L key).length + 1 = L.length := by
  have hL : entriesAt L 0 = L :=
    List.filter_eq_self.mpr fun e he => by
      simp only [decide_eq_true_eq]
      exact hpos e he
  have hsplit : L = belowAt L 0 key ++ te :: aboveAt L 0 key := by
    conv_lhs => rw [← hL, entriesAt_split_at_mem hs hte (hpos te hte), htek]
  have hdel : delKey L key = belowAt L 0 key ++ aboveAt L 0 key := by
    have h0 : entriesAt (delKey L key) 0 = delKey L key :=
      List.filter_eq_self.mpr fun e he => by
        simp only [decide_eq_true_eq]
        exact hpos e (List.mem_of_mem_filter he)
    rw [← h0, entriesAt_delKey_lt hs key 0]
  rw [hdel]
  conv_rhs => rw [hsplit]
  simp only [List.length_append, List.length_cons]
  omega

theorem mem_delKey {K : Type} [LinearOrder K] {L : List (Entry K)} {key : K} {x : Entry K} :
    x ∈ delKey L key ↔ x ∈ L ∧ x.key ≠ key := by
  simp [delKey, List.mem_filter]

theorem eraseScan_run {K : Type} [LinearOrder K] {s : SkipState K} {L : List (Entry K)}
    (hr : Rep s L) {key : K} {te : Entry K} (hte : te ∈ L) (htek : te.key = key) :
    ∀ i, i ≤ s.maxHeight → ∀ stack, StackOK s.heap L key s.maxHeight stack i →
      ∃ stack', eraseScan s.heap key i (predIdAt L i key)
          (if i < te.ht then some te.id else none) stack =
          Except.ok (stack', some te.id) ∧
        StackOK s.heap L key s.maxHeight stack' 0 := by
  intro i
  induction i with
  | zero =>
    intro _ stack hok
    have h1 : 0 < te.ht := (hr.ht_le te hte).1
    rw [if_pos h1]
    exact ⟨stack, rfl, hok⟩
  | succ i ih =>
    intro hle stack hok
    have hi : i < s.maxHeight := Nat.lt_of_succ_le hle
    obtain ⟨cn, bs, hcn, hlt, hch, hbs, hland, hlen⟩ := descend_setup hr key hi
    have hfuel : bs.length < s.heap.length := lt_of_le_of_lt hlen (rep_length_lt hr)
    have hcs : ∀ e, (fromKey L i key).head? = some e → ¬ e.key < key := fun e he =>
      not_lt.mpr (mem_fromKey.mp (head?_mem he)).2.2
    have hrun := eraseLevel_run (if i + 1 < te.ht then some te.id else none)
      hcn hlt hch hbs hcs hfuel
    rw [hland] at hrun
    obtain ⟨stack', hs', hok'⟩ := ih (le_of_lt hi) _ (stackOK_step hr hi hok)
    refine ⟨stack', ?_, hok'⟩
    have hte' : ((fromKey L i key).head?).elim (if i + 1 < te.ht then some te.id else none)
        (fun e => if key < e.key then (if i + 1 < te.ht then some te.id else none)
          else some e.id) = (if i < te.ht then some te.id else none) := by
      by_cases hih : i < te.ht
      · have hmem : te ∈ fromKey L i key := mem_fromKey.mpr ⟨hte, hih, le_of_eq htek.symm⟩
        have hhd : (fromKey L i key).head? = some te := by
          apply sorted_head_of_min hmem ?_ (hr.sorted.filter _)
          intro y hy
          rw [htek]
          exact (mem_fromKey.mp hy).2.2
        rw [hhd]
        simp only [Option.elim]
        rw [if_neg (by rw [htek]; exact lt_irrefl key), if_pos hih]
      · have hnone : (if i + 1 < te.ht then some te.id else none) = none := by
          rw [if_neg (by omega)]
        rw [if_neg hih, hnone]
        cases hh : (fromKey L i key).head? with
        | none => rfl
        | some e =>
          obtain ⟨he1, he2, he3⟩ := mem_fromKey.mp (head?_mem hh)
          have hne : e ≠ te := by rintro rfl; exact hih he2
          have hklt : key < e.key := lt_of_le_of_ne he3 fun h =>
            hne (sorted_key_inj hr.sorted he1 hte (by rw [← h, htek]))
          simp only [Option.elim]
          rw [if_pos hklt]
    rw [hte'] at hrun
    rw [eraseScan, hrun, ok_bind]
    exact hs'

theorem unspliceInner_run {K : Type} [LinearOrder K] {s : SkipState K} {L : List (Entry K)}
    {key : K} (hr : Rep s L) {te : Entry K} (hte : te ∈ L) (htek : te.key = key)
    {h : Nat} (hht : h = te.ht) {q : Nat} {qn0 : SkipNode K}
    (hq : s.heap[q]? = some qn0) :
    ∀ (cnt lvl : Nat) (heapCur : List (SkipNode K)),
      min h qn0.links.length - lvl ≤ cnt →
      (∀ l, lvl ≤ l → l < qn0.links.length → predIdAt L l key = q) →
      HeapShapeEq s.heap heapCur →
      LinksSameFrom s.heap heapCur lvl →
      (∀ l, l < lvl →
        ChainSeg heapCur l (headerLink heapCur l) (entriesAt (delKey L key) l) none) →
      lvl ≤ min h qn0.links.length →
      ∃ heap2,
        unspliceInner te.id q h heapCur lvl =
          Except.ok (heap2, min h qn0.links.length) ∧
        HeapShapeEq s.heap heap2 ∧
        LinksSameFrom s.heap heap2 (min h qn0.links.length) ∧
        (∀ l, l < min h qn0.links.length →
          ChainSeg heap2 l (headerLink heap2 l) (entriesAt (delKey L key) l) none) := by
  obtain ⟨hd0, hhd0, hlen0⟩ := hr.hdr
  have hpos : 0 < s.heap.length := (List.getElem?_eq_some.mp hhd0).1
  obtain ⟨tn0, htn0, htn0k, htn0l⟩ := rep_entry_node hr hte
  intro cnt
  induction cnt with
  | zero =>
    intro lvl heapCur hcnt hband hshape hup hdone hle
    have hstop : lvl = min h qn0.links.length := by omega
    obtain ⟨nd, hnd, hndk, hndl⟩ := hshape.2 q qn0 hq
    have hng : ¬ (lvl < min h nd.Height) := by
      rw [SkipNode.Height, hndl]; omega
    refine ⟨heapCur, ?_, hshape, by rw [← hstop]; exact hup, ?_⟩
    · conv_lhs => rw [unspliceInner]
      simp [nodeAt, hnd, ok_bind, hng, ← hstop]
      intro h1 h2
      exact absurd (lt_min_iff.mpr ⟨h1, h2⟩) hng
    · intro l hl
      rw [← hstop] at hl
      exact hdone l hl
  | succ cnt ih =>
    intro lvl heapCur hcnt hband hshape hup hdone hle
    obtain ⟨nd, hnd, hndk, hndl⟩ := hshape.2 q qn0 hq
    by_cases hstop : lvl < min h qn0.links.length
    case neg =>
      have hstopEq : lvl = min h qn0.links.length := by omega
      have hng : ¬ (lvl < min h nd.Height) := by
        rw [SkipNode.Height, hndl]; omega
      refine ⟨heapCur, ?_, hshape, by rw [← hstopEq]; exact hup, ?_⟩
      · conv_lhs => rw [unspliceInner]
        simp [nodeAt, hnd, ok_bind, hng, ← hstopEq]
        intro h1 h2
        exact absurd (lt_min_iff.mpr ⟨h1, h2⟩) hng
      · intro l hl
        rw [← hstopEq] at hl
        exact hdone l hl
    case pos =>
    have hg1 : lvl < h := lt_of_lt_of_le hstop (min_le_left _ _)
    have hg2q : lvl < qn0.links.length := lt_of_lt_of_le hstop (min_le_right _ _)
    have hlt1 : lvl < nd.links.length := by rw [hndl]; exact hg2q
    have hqpred : predIdAt L lvl key = q := hband lvl (le_refl _) hg2q
    have hqnete : q ≠ te.id := by
      cases hQ : predE L lvl key with
      | none =>
        have hq0' : q = 0 := by rw [← hqpred]; simp [predIdAt, hQ]
        rw [hq0']
        exact fun hh => hr.nz te hte hh.symm
      | some e =>
        obtain ⟨he, -, hek⟩ := predE_mem hQ
        have hqe : q = e.id := by rw [← hqpred]; simp [predIdAt, hQ]
        rw [hqe]
        intro hh
        have : e = te := rep_id_inj hr he hte hh
        rw [this, htek] at hek
        exact absurd hek (lt_irrefl key)
    obtain ⟨teCur, hteCur, hteCurk, hteCurl⟩ := hshape.2 te.id tn0 htn0
    have hteCurlen : teCur.links.length = te.ht := by rw [hteCurl, htn0l]
    have hlt2 : lvl < teCur.links.length := by rw [hteCurlen]; omega
    have hguard : lvl < min h nd.Height := by
      rw [SkipNode.Height, hndl]; exact hstop
    have hheap1q :
        (heapCur.set te.id { teCur with links := teCur.links.set lvl none })[q]? = some nd := by
      rw [List.getElem?_set_ne (Ne.symm hqnete)]; exact hnd
    have hstep : unspliceInner te.id q h heapCur lvl =
        unspliceInner te.id q h
          ((heapCur.set te.id { teCur with links := teCur.links.set lvl none }).set q
            { nd with links := nd.links.set lvl (teCur.links.getD lvl none) }) (lvl + 1) := by
      have hg2 := (lt_min_iff.mp hguard).2
      conv_lhs => rw [unspliceInner]
      simp [nodeAt, hnd, hteCur, ok_bind, hguard, SkipNode.Next, SkipNode.SetNext,
        not_le.mpr hlt1, not_le.mpr hlt2, hheap1q, hg1, hg2, not_le.mpr hg2]
    set te' : SkipNode K := { teCur with links := teCur.links.set lvl none } with htedefn
    set nd' : SkipNode K := { nd with links := nd.links.set lvl (teCur.links.getD lvl none) }
      with hnddefn
    set heap2 : List (SkipNode K) := (heapCur.set te.id te').set q nd' with hheap2def
    have hculen : q < heapCur.length := (List.getElem?_eq_some.mp hnd).1
    have htelen : te.id < heapCur.length := (List.getElem?_eq_some.mp hteCur).1
    have h2q : heap2[q]? = some nd' :=
      List.getElem?_set_self (by rw [List.length_set]; exact hculen)
    have h2te : heap2[te.id]? = some te' := by
      rw [hheap2def, List.getElem?_set_ne hqnete]
      exact List.getElem?_set_self htelen
    have h2other : ∀ p, p ≠ q → p ≠ te.id → heap2[p]? = heapCur[p]? := by
      intro p h1 h2
      rw [hheap2def, List.getElem?_set_ne (Ne.symm h1), List.getElem?_set_ne (Ne.symm h2)]
    have hshape2 : HeapShapeEq s.heap heap2 := by
      refine ⟨?_, ?_⟩
      · rw [hheap2def]
        simp only [List.length_set]
        exact hshape.1
      · intro p n hp
        by_cases hpq : p = q
        · rw [hpq] at hp ⊢
          rw [hq, Option.some.injEq] at hp
          subst hp
          refine ⟨nd', h2q, ?_, ?_⟩
          · rw [hnddefn]; exact hndk
          · rw [hnddefn]; simp only [List.length_set]; exact hndl
        · by_cases hpn : p = te.id
          · rw [hpn] at hp ⊢
            rw [htn0, Option.some.injEq] at hp
            subst hp
            refine ⟨te', h2te, ?_, ?_⟩
            · rw [htedefn]; exact hteCurk
            · rw [htedefn]; simp only [List.length_set]; exact hteCurl
          · obtain ⟨n', hn', hk', hl'⟩ := hshape.2 p n hp
            exact ⟨n', by rw [h2other p hpq hpn]; exact hn', hk', hl'⟩
    have hup2 : LinksSameFrom s.heap heap2 (lvl + 1) := by
      intro p n n' hp hp2 l hl
      by_cases hpq : p = q
      · rw [hpq] at hp hp2
        rw [hq, Option.some.injEq] at hp
        subst hp
        rw [h2q, Option.some.injEq] at hp2
        subst hp2
        rw [hnddefn]
        show (nd.links.set lvl (teCur.links.getD lvl none)).getD l none = _
        rw [links_set_getD_ne _ _ (by omega)]
        exact hup q _ nd hq hnd l (by omega)
      · by_cases hpn : p = te.id
        · rw [hpn] at hp hp2
          rw [htn0, Option.some.injEq] at hp
          subst hp
          rw [h2te, Option.some.injEq] at hp2
          subst hp2
          rw [htedefn]
          show (teCur.links.set lvl none).getD l none = _
          rw [links_set_getD_ne _ _ (by omega)]
          exact hup _ _ teCur htn0 hteCur l (by omega)
        · rw [h2other p hpq hpn] at hp2
          exact hup p n n' hp hp2 l (by omega)
    have hh0 : ∀ l', l' ≠ lvl → headerLink heap2 l' = headerLink heapCur l' := by
      intro l' hl'
      by_cases hq00 : q = 0
      · rw [headerLink, headerLink]
        rw [hq00] at h2q hnd
        rw [h2q, hnd, hnddefn]
        show (nd.links.set lvl (teCur.links.getD lvl none)).getD l' none = _
        rw [links_set_getD_ne _ _ (fun hh => hl' hh.symm)]
      · have h0te : (0 : Nat) ≠ te.id := fun hh => hr.nz te hte hh.symm
        rw [headerLink, headerLink, h2other 0 (fun hh => hq00 hh.symm) h0te]
    have hagreeOff : ∀ l', l' ≠ lvl → ∀ (e : Entry K), ∀ n, heapCur[e.id]? = some n →
        ∃ n', heap2[e.id]? = some n' ∧ n'.key = n.key ∧ n'.links.length = n.links.length ∧
          n'.links.getD l' none = n.links.getD l' none := by
      intro l' hl' e n hn
      by_cases hpq : e.id = q
      · rw [hpq] at hn ⊢
        rw [hnd, Option.some.injEq] at hn
        subst hn
        refine ⟨nd', h2q, by rw [hnddefn], ?_, ?_⟩
        · rw [hnddefn]; simp only [List.length_set]
        · rw [hnddefn]
          show (nd.links.set lvl (teCur.links.getD lvl none)).getD l' none = _
          exact links_set_getD_ne _ _ (fun hh => hl' hh.symm)
      · by_cases hpn : e.id = te.id
        · rw [hpn] at hn ⊢
          rw [hteCur, Option.some.injEq] at hn
          subst hn
          refine ⟨te', h2te, by rw [htedefn], ?_, ?_⟩
          · rw [htedefn]; simp only [List.length_set]
          · rw [htedefn]
            show (teCur.links.set lvl none).getD l' none = _
            exact links_set_getD_ne _ _ (fun hh => hl' hh.symm)
        · exact ⟨n, by rw [h2other e.id hpq hpn]; exact hn, rfl, rfl, rfl⟩
    have hdoneOld : ∀ l, l < lvl →
        ChainSeg heap2 l (headerLink heap2 l) (entriesAt (delKey L key) l) none := by
      intro l hl
      rw [hh0 l (by omega)]
      exact chainSeg_congr (fun e _ n hn => hagreeOff l (by omega) e n hn) (hdone l hl)
    have hlvlmax : lvl < s.maxHeight :=
      lt_of_lt_of_le (by omega : lvl < te.ht) (hr.ht_le te hte).2
    have hchCur : ChainSeg heapCur lvl (headerLink heapCur lvl)
        (belowAt L lvl key ++ te :: aboveAt L lvl key) none := by
      have h0' := hr.chains lvl hlvlmax
      rw [entriesAt_split_at_mem hr.sorted hte (by omega : lvl < te.ht), htek] at h0'
      have hT := headerLink_transport hshape hup hhd0 (le_refl lvl)
      have := chain_transport hshape hup (le_refl lvl) h0'
      rwa [← hT] at this
    obtain ⟨m, hA, hTeB⟩ := chainSeg_append.mp hchCur
    obtain ⟨hm, hhtTe, tn, htn, htnk, htnl, hBrest⟩ := hTeB
    have htn_eq : tn = teCur := by
      rw [hteCur, Option.some.injEq] at htn
      exact htn.symm
    have hBset : ∀ b ∈ aboveAt L lvl key, b.id ≠ q ∧ b.id ≠ te.id := by
      intro b hb
      obtain ⟨hb1, hb2, hb3⟩ := mem_aboveAt.mp hb
      constructor
      · intro hbq
        cases hQ : predE L lvl key with
        | none => exact hr.nz b hb1 (by rw [hbq, ← hqpred]; simp [predIdAt, hQ])
        | some e =>
          obtain ⟨he, -, hek⟩ := predE_mem hQ
          have hqe : q = e.id := by rw [← hqpred]; simp [predIdAt, hQ]
          have hbe : b = e := rep_id_inj hr hb1 he (by rw [hbq, hqe])
          rw [hbe] at hb3
          exact absurd (lt_trans hek hb3) (lt_irrefl _)
      · intro hbn
        have hbe : b = te := rep_id_inj hr hb1 hte hbn
        rw [hbe, htek] at hb3
        exact absurd hb3 (lt_irrefl _)
    have hBtrans : ChainSeg heap2 lvl (tn.links.getD lvl none) (aboveAt L lvl key) none := by
      refine chainSeg_congr ?_ hBrest
      intro e he n hn
      obtain ⟨hne1, hne2⟩ := hBset e he
      exact ⟨n, by rw [h2other e.id hne1 hne2]; exact hn, rfl, rfl, rfl⟩
    have hndnew : nd'.links.getD lvl none = teCur.links.getD lvl none := by
      rw [hnddefn]
      exact links_set_getD_self _ _ hlt1
    have hdoneNew : ChainSeg heap2 lvl (headerLink heap2 lvl)
        (entriesAt (delKey L key) lvl) none := by
      rw [entriesAt_delKey_lt hr.sorted key lvl]
      cases hQ : predE L lvl key with
      | none =>
        have hq0' : q = 0 := by rw [← hqpred]; simp [predIdAt, hQ]
        have hAnil : belowAt L lvl key = [] := List.getLast?_eq_none_iff.mp hQ
        rw [hAnil] at hA ⊢
        have hmhl : headerLink heapCur lvl = m := hA
        have hhl2 : headerLink heap2 lvl = teCur.links.getD lvl none := by
          rw [headerLink]
          rw [hq0'] at h2q
          rw [h2q, hnddefn]
          exact links_set_getD_self _ _ hlt1
        rw [hhl2, List.nil_append, ← htn_eq]
        exact hBtrans
      | some e =>
        have hqe : q = e.id := by rw [← hqpred]; simp [predIdAt, hQ]
        obtain ⟨he, hlte, hek⟩ := predE_mem hQ
        have hAlast : (belowAt L lvl key).getLast? = some e := hQ
        have hq0ne : q ≠ 0 := by rw [hqe]; exact fun hh => hr.nz e he hh
        have hhl2 : headerLink heap2 lvl = headerLink heapCur lvl := by
          rw [headerLink, headerLink, h2other 0 (fun hh => hq0ne hh.symm)
            (fun hh => hr.nz te hte hh.symm)]
        rw [hhl2]
        refine chainSeg_append.mpr ⟨tn.links.getD lvl none, ?_, hBtrans⟩
        refine chainSeg_retarget hA hAlast ?_ ?_ ?_
        · exact (rep_ids_nodup hr).sublist (List.Sublist.map _ (List.filter_sublist _))
        · intro x hx hxne n hn
          have hxq : x.id ≠ q := by rw [hqe]; exact hxne
          have hxte : x.id ≠ te.id := by
            intro hh
            have hxe : x = te := rep_id_inj hr (mem_belowAt.mp hx).1 hte hh
            have := (mem_belowAt.mp hx).2.2
            rw [hxe, htek] at this
            exact absurd this (lt_irrefl _)
          exact ⟨n, by rw [h2other x.id hxq hxte]; exact hn, rfl, rfl, rfl⟩
        · intro n hn
          rw [← hqe, hnd, Option.some.injEq] at hn
          subst hn
          refine ⟨nd', by rw [← hqe]; exact h2q, by rw [hnddefn], ?_, ?_⟩
          · rw [hnddefn]; simp only [List.length_set]
          · rw [hnddefn, links_set_getD_self _ _ hlt1, htn_eq]
    have hdoneAll : ∀ l, l < lvl + 1 →
        ChainSeg heap2 l (headerLink heap2 l) (entriesAt (delKey L key) l) none := by
      intro l hl
      rcases Nat.lt_or_ge l lvl with h1 | h1
      · exact hdoneOld l h1
      · have hleq : l = lvl := by omega
        rw [hleq]
        exact hdoneNew
    obtain ⟨heap3, hrun3, hsh3, hls3, hdone3⟩ :=
      ih (lvl + 1) heap2 (by omega) (fun l hl hlen => hband l (by omega) hlen) hshape2 hup2
        hdoneAll (by omega)
    exact ⟨heap3, by rw [hstep, hrun3], hsh3, hls3, hdone3⟩

theorem unspliceOuter_run {K : Type} [LinearOrder K] {s : SkipState K} {L : List (Entry K)}
    {key : K} (hr : Rep s L) {te : Entry K} (hte : te ∈ L) (htek : te.key = key)
    {h : Nat} (hht : h = te.ht) :
    ∀ (stack : List Nat) (lvl : Nat) (heapCur : List (SkipNode K)),
      lvl ≤ h →
      (lvl < h → StackOK s.heap L key s.maxHeight stack lvl) →
      HeapShapeEq s.heap heapCur →
      LinksSameFrom s.heap heapCur lvl →
      (∀ l, l < lvl →
        ChainSeg heapCur l (headerLink heapCur l) (entriesAt (delKey L key) l) none) →
      ∃ heapF,
        unspliceOuter te.id h stack heapCur lvl = Except.ok heapF ∧
        HeapShapeEq s.heap heapF ∧
        LinksSameFrom s.heap heapF h ∧
        (∀ l, l < h →
          ChainSeg heapF l (headerLink heapF l) (entriesAt (delKey L key) l) none) := by
  intro stack
  induction stack with
  | nil =>
    intro lvl heapCur hle hok hshape hup hdone
    have hlh : ¬ lvl < h := by
      intro hlh
      have htop : s.maxHeight ≤ lvl := hok hlh
      have := (hr.ht_le te hte).2
      omega
    have hlvl : lvl = h := by omega
    refine ⟨heapCur, ?_, hshape, hlvl ▸ hup, fun l hl => hdone l (hlvl ▸ hl)⟩
    rw [unspliceOuter, if_neg hlh]
  | cons q rest ih =>
    intro lvl heapCur hle hok hshape hup hdone
    by_cases hlh : lvl < h
    · obtain ⟨qn0, hqn0, hlvl_len, hlen_le, hband, hrest⟩ := hok hlh
      have hlemin : lvl ≤ min h qn0.links.length := le_min (le_of_lt hlh) (le_of_lt hlvl_len)
      obtain ⟨heap2, hrun2, hsh2, hls2, hdone2⟩ :=
        unspliceInner_run hr hte htek hht hqn0 (min h qn0.links.length - lvl) lvl heapCur
          (le_refl _) hband hshape hup hdone hlemin
      obtain ⟨heapF, hrunF, hshF, hlsF, hdoneF⟩ :=
        ih (min h qn0.links.length) heap2 (min_le_left _ _)
          (by
            intro hlt
            have hq : min h qn0.links.length = qn0.links.length := by omega
            rw [hq]
            exact hrest)
          hsh2 hls2 hdone2
      refine ⟨heapF, ?_, hshF, hlsF, hdoneF⟩
      rw [unspliceOuter, if_pos hlh, hrun2, ok_bind, hrunF]
    · have hlvl : lvl = h := by omega
      refine ⟨heapCur, ?_, hshape, hlvl ▸ hup, fun l hl => hdone l (hlvl ▸ hl)⟩
      rw [unspliceOuter, if_neg hlh]

/-- Successful erase: the abstraction loses exactly the entry holding the
key and the live count drops by one. -/
theorem erase_spec {K : Type} [LinearOrder K] {s : SkipState K} {L : List (Entry K)}
    (hr : Rep s L) {key : K} {te : Entry K} (hte : te ∈ L) (htek : te.key = key) :
    ∃ heapF,
      s.Erase key = Except.ok (true,
        ({ s with heap := heapF, size := s.size - 1 } : SkipState K)) ∧
      Rep ({ s with heap := heapF, size := s.size - 1 } : SkipState K) (delKey L key) := by
  obtain ⟨hd0, hhd0, hlen0⟩ := hr.hdr
  have hpos : 0 < s.heap.length := (List.getElem?_eq_some.mp hhd0).1
  obtain ⟨tn0, htn0, htn0k, htn0l⟩ := rep_entry_node hr hte
  have hcont : s.Contains key = Except.ok true := by
    rw [contains_spec hr key]
    congr 1
    rw [decide_eq_true_eq]
    exact ⟨te, hte, htek⟩
  have hpid : predIdAt L s.maxHeight key = 0 := by
    simp [predIdAt, predE_top hr key (le_refl _)]
  have hinit : (if s.maxHeight < te.ht then some te.id else none) = (none : Option Nat) := by
    rw [if_neg (not_lt.mpr (hr.ht_le te hte).2)]
  obtain ⟨stack, hscan, hokS⟩ :=
    eraseScan_run hr hte htek s.maxHeight (le_refl _) [] (le_refl _)
  rw [hpid, hinit] at hscan
  have hshape0 : HeapShapeEq s.heap s.heap := ⟨rfl, fun p n hp => ⟨n, hp, rfl, rfl⟩⟩
  have hup0 : LinksSameFrom s.heap s.heap 0 := by
    intro p n n' hp hp2 l hl
    rw [hp, Option.some.injEq] at hp2
    rw [hp2]
  obtain ⟨heapF, hrunOuter, hshF, hlsF, hdoneF⟩ :=
    unspliceOuter_run hr hte htek (show tn0.Height = te.ht from htn0l) stack 0 s.heap
      (Nat.zero_le _) (fun _ => hokS) hshape0 hup0 (fun l hl => absurd hl (by omega))
  rw [show tn0.Height = te.ht from htn0l] at hlsF hdoneF
  refine ⟨heapF, ?_, ?_⟩
  · rw [SkipState.Erase]
    simp only [hcont, ok_bind]
    simp only [if_pos trivial, hscan, ok_bind]
    simp only [nodeAt, htn0, ok_bind]
    rw [hrunOuter, ok_bind]
  · constructor
    · exact hr.mh_pos
    · obtain ⟨hdF, hhdF, hkF, hlF⟩ := hshF.2 0 hd0 hhd0
      exact ⟨hdF, hhdF, by rw [hlF]; exact hlen0⟩
    · exact hr.sorted.filter _
    · intro e he
      exact hr.nz e (mem_delKey.mp he).1
    · intro e he
      exact hr.ht_le e (mem_delKey.mp he).1
    · intro l hl
      by_cases hlh : l < te.ht
      · exact hdoneF l hlh
      · rw [entriesAt_delKey_ge hr.sorted hte htek (by omega : te.ht ≤ l)]
        have hT := headerLink_transport hshF hlsF hhd0 (le_of_not_lt hlh)
        have := chain_transport hshF hlsF (le_of_not_lt hlh) (hr.chains l hl)
        rwa [← hT] at this
    · show s.size - 1 = _
      rw [hr.sz, ← delKey_length hr.sorted hte htek (fun e he => (hr.ht_le e he).1)]
      omega

/-! ### Duplicate insert, absent erase, and the `Insert` wrapper -/

theorem insertRec_dup {K : Type} [LinearOrder K] {s : SkipState K} {L : List (Entry K)}
    (hr : Rep s L) {key : K} (hpres : ∃ e ∈ L, e.key = key) :
    insertRec s key = Except.ok (false, s, []) := by
  have hcont : s.Contains key = Except.ok true := by
    rw [contains_spec hr key, decide_eq_true hpres]
  rw [insertRec]
  simp only [hcont, ok_bind, if_pos]

theorem insert_dup {K : Type} [LinearOrder K] {s : SkipState K} {L : List (Entry K)}
    (hr : Rep s L) {key : K} (hpres : ∃ e ∈ L, e.key = key) :
    s.Insert key = Except.ok (false, s) := by
  rw [SkipState.Insert, insertRec_dup hr hpres]
  rfl

theorem erase_miss {K : Type} [LinearOrder K] {s : SkipState K} {L : List (Entry K)}
    (hr : Rep s L) {key : K} (habs : ∀ e ∈ L, e.key ≠ key) :
    s.Erase key = Except.ok (false, s) := by
  have hcont : s.Contains key = Except.ok false := by
    rw [contains_spec hr key]
    congr 1
    rw [decide_eq_false_iff_not]
    rintro ⟨e, he, hk⟩
    exact habs e he hk
  rw [SkipState.Erase]
  simp only [hcont, ok_bind, Bool.false_eq_true, if_false]

theorem insert_ok {K : Type} [LinearOrder K] {s : SkipState K} {L : List (Entry K)}
    (hr : Rep s L) {key : K} (habs : ∀ e ∈ L, e.key ≠ key) :
    ∃ s', s.Insert key = Except.ok (true, s') ∧ s'.size = s.size + 1 ∧
      Rep s' (insEntry L (Entry.mk s.heap.length key
        (RandomHeight s.maxHeight s.rng s.rngIdx).1)) := by
  obtain ⟨heapF, h1, h2⟩ := insertRec_spec hr habs
  refine ⟨_, ?_, rfl, h2⟩
  rw [SkipState.Insert, h1]
  rfl

theorem rep_mkSkipList {K : Type} [LinearOrder K] [Inhabited K] {mh : Nat}
    (rng : Nat → Nat) (hm : 1 ≤ mh) : Rep (mkSkipList K mh rng) [] := by
  refine ⟨hm, ⟨⟨default, List.replicate mh none⟩, rfl, List.length_replicate _ _⟩,
    List.Pairwise.nil, nofun, nofun, ?_, rfl⟩
  intro l _
  have hnone : headerLink (mkSkipList K mh rng).heap l = none := by
    show ((List.replicate mh (none : Option Nat)).getD l none) = none
    rw [List.getD_eq_getElem?_getD, List.getElem?_replicate]
    split <;> rfl
  rw [show entriesAt ([] : List (Entry K)) l = [] from rfl, hnone]
  rfl

theorem entriesAt_zero {K : Type} {L : List (Entry K)}
    (hht : ∀ e ∈ L, 1 ≤ e.ht) : entriesAt L 0 = L := by
  rw [entriesAt]
  apply List.filter_eq_self.mpr
  intro e he
  simp only [decide_eq_true_eq]
  exact hht e he

/-! ### The observable chains -/

theorem chainIdsAux_of_chainSeg {K : Type} {heap : List (SkipNode K)} {l : Nat} :
    ∀ (es : List (Entry K)) (p : Option Nat) (fuel : Nat), ChainSeg heap l p es none →
      es.length < fuel → chainIdsAux heap l fuel p = es.map Entry.id := by
  intro es
  induction es with
  | nil =>
    intro p fuel hch _
    rw [chainSeg_nil] at hch
    subst hch
    cases fuel <;> rfl
  | cons e es ih =>
    intro p fuel hch hlen
    obtain ⟨hp, hht, n, hn, hk, hl, hrest⟩ := hch
    subst hp
    cases fuel with
    | zero => omega
    | succ f =>
      show chainIdsAux heap l (f + 1) (some e.id) = _
      simp only [chainIdsAux, hn]
      rw [List.map_cons, ih (n.links.getD l none) f hrest (by simpa using hlen)]

theorem chainIds_eq {K : Type} [LinearOrder K] {s : SkipState K} {L : List (Entry K)}
    (hr : Rep s L) {l : Nat} (hl : l < s.maxHeight) :
    chainIds s l = (entriesAt L l).map Entry.id := by
  apply chainIdsAux_of_chainSeg _ _ _ (hr.chains l hl)
  calc (entriesAt L l).length ≤ L.length := List.length_filter_le _ _
    _ < s.heap.length := rep_length_lt hr

theorem chainIds_high {K : Type} [LinearOrder K] {s : SkipState K} {L : List (Entry K)}
    (hr : Rep s L) {l : Nat} (hl : s.maxHeight ≤ l) : chainIds s l = [] := by
  obtain ⟨hd, hhd, hlen⟩ := hr.hdr
  have hnone : headerLink s.heap l = none := by
    rw [headerLink, hhd]
    show hd.links.getD l none = none
    rw [List.getD_eq_getElem?_getD, List.getElem?_eq_none (by omega)]
    rfl
  rw [chainIds, hnone]
  cases s.heap.length <;> rfl

theorem chainKeys_eq {K : Type} [LinearOrder K] {s : SkipState K} {L : List (Entry K)}
    (hr : Rep s L) {l : Nat} (hl : l < s.maxHeight) :
    chainKeys s l = (entriesAt L l).map Entry.key := by
  rw [chainKeys, chainIds_eq hr hl, List.filterMap_map]
  have hpt : ∀ e ∈ entriesAt L l,
      ((fun p => (s.heap[p]?).map SkipNode.key) ∘ Entry.id) e = some e.key := by
    intro e he
    obtain ⟨n, hn, hk, -⟩ := rep_entry_node hr (List.mem_of_mem_filter he)
    simp only [Function.comp_apply, hn, Option.map_some']
    rw [hk]
  rw [List.filterMap_congr hpt]
  exact List.filterMap_eq_map _ ▸ rfl

theorem chainKeys_sorted {K : Type} [LinearOrder K] {s : SkipState K} {L : List (Entry K)}
    (hr : Rep s L) (l : Nat) : (chainKeys s l).Pairwise (· < ·) := by
  by_cases hl : l < s.maxHeight
  · rw [chainKeys_eq hr hl]
    exact List.Pairwise.map _ (fun a b h => h) (hr.sorted.filter _)
  · rw [chainKeys, chainIds_high hr (le_of_not_lt hl)]
    exact List.Pairwise.nil

/-! ### Clear -/

theorem dropLevel_run {K : Type} {l : Nat} :
    ∀ (es : List (Entry K)) (p : Option Nat) (heapCur : List (SkipNode K)) (fuel : Nat),
      ChainSeg heapCur l p es none → (es.map Entry.id).Nodup → es.length < fuel →
      ∃ heapF, dropLevel l fuel heapCur p = Except.ok heapF ∧
        heapF.length = heapCur.length ∧
        (∀ q, q ∉ es.map Entry.id → heapF[q]? = heapCur[q]?) ∧
        (∀ (q : Nat) (n : SkipNode K), heapCur[q]? = some n →
          ∃ n', heapF[q]? = some n' ∧ n'.key = n.key ∧ n'.links.length = n.links.length ∧
            ∀ j, j ≠ l → n'.links.getD j none = n.links.getD j none) := by
  intro es
  induction es with
  | nil =>
    intro p heapCur fuel hch _ _
    rw [chainSeg_nil] at hch
    subst hch
    refine ⟨heapCur, ?_, rfl, fun q _ => rfl, fun q n hn => ⟨n, hn, rfl, rfl, fun _ _ => rfl⟩⟩
    cases fuel <;> rfl
  | cons e es ih =>
    intro p heapCur fuel hch hnd hlen
    obtain ⟨hp, hht, n, hn, hk, hl2, hrest⟩ := hch
    subst hp
    cases fuel with
    | zero => omega
    | succ f =>
      have hidlt : e.id < heapCur.length := (List.getElem?_eq_some.mp hn).1
      have hnd' : (es.map Entry.id).Nodup := (List.nodup_cons.mp hnd).2
      have hnotin : e.id ∉ es.map Entry.id := (List.nodup_cons.mp hnd).1
      have hsame : ∀ q, q ≠ e.id →
          (heapCur.set e.id { n with links := n.links.set l none })[q]? = heapCur[q]? :=
        fun q hq => List.getElem?_set_ne (Ne.symm hq)
      have hch2 : ChainSeg (heapCur.set e.id { n with links := n.links.set l none }) l
          (n.links.getD l none) es none := by
        refine chainSeg_congr ?_ hrest
        intro x hx m hm
        have hxne : x.id ≠ e.id := fun heq => hnotin (heq ▸ List.mem_map_of_mem _ hx)
        exact ⟨m, by rw [hsame x.id hxne]; exact hm, rfl, rfl, rfl⟩
      obtain ⟨heapF, hrun, hlenEq, huntouched, hprop⟩ := ih _ _ f hch2 hnd' (by simpa using hlen)
      refine ⟨heapF, ?_, ?_, ?_, ?_⟩
      · show dropLevel l (f + 1) heapCur (some e.id) = _
        rw [dropLevel]
        simp only [nodeAt, hn, ok_bind]
        exact hrun
      · rw [hlenEq]
        exact List.length_set _ _ _
      · intro q hq
        have hqne : q ≠ e.id := fun h => hq (h ▸ List.mem_map_of_mem _ (List.mem_cons_self e es))
        rw [huntouched q (fun h => hq (by rw [List.map_cons]; exact List.mem_cons_of_mem _ h)),
          hsame q hqne]
      · intro q m hm
        by_cases hq : q = e.id
        · subst hq
          rw [hn, Option.some.injEq] at hm
          subst hm
          obtain ⟨m', hm', hk', hl', hj'⟩ := hprop e.id _ (List.getElem?_set_self hidlt)
          refine ⟨m', hm', hk', ?_, ?_⟩
          · rw [hl']
            exact List.length_set _ _ _
          · intro j hj
            rw [hj' j hj]
            exact links_set_getD_ne _ _ (Ne.symm hj)
        · obtain ⟨m', hm', hk', hl', hj'⟩ := hprop q m (by rw [hsame q hq]; exact hm)
          exact ⟨m', hm', hk', hl', hj'⟩

theorem dropLevels_run {K : Type} [LinearOrder K] {s : SkipState K} {L : List (Entry K)}
    (hr : Rep s L) :
    ∀ (levels : Nat) (i : Nat) (heapCur : List (SkipNode K)),
      i + levels = s.maxHeight →
      (∀ (q : Nat) (n : SkipNode K), s.heap[q]? = some n →
        ∃ n', heapCur[q]? = some n' ∧ n'.key = n.key ∧ n'.links.length = n.links.length) →
      heapCur.length = s.heap.length →
      (∀ (q : Nat) (n n' : SkipNode K), s.heap[q]? = some n → heapCur[q]? = some n' →
        ∀ j, i ≤ j → n'.links.getD j none = n.links.getD j none) →
      (∀ j, j < i → headerLink heapCur j = none) →
      ∃ heapF, dropLevels levels i heapCur = Except.ok heapF ∧
        heapF.length = s.heap.length ∧
        (∀ (q : Nat) (n : SkipNode K), s.heap[q]? = some n →
          ∃ n', heapF[q]? = some n' ∧ n'.key = n.key ∧ n'.links.length = n.links.length) ∧
        (∀ j, j < s.maxHeight → headerLink heapF j = none) := by
  intro levels
  induction levels with
  | zero =>
    intro i heapCur hsum hshape hlen hls hhdr
    exact ⟨heapCur, rfl, hlen, hshape, fun j hj => hhdr j (by omega)⟩
  | succ lv ih =>
    intro i heapCur hsum hshape hlen hls hhdr
    obtain ⟨hd0, hhd0, hlen0⟩ := hr.hdr
    obtain ⟨hdC, hhdC, hkC, hlC⟩ := hshape 0 hd0 hhd0
    have hilt : i < s.maxHeight := by omega
    have h0lt : (0 : Nat) < heapCur.length := (List.getElem?_eq_some.mp hhdC).1
    have hheap1at : ∀ q, q ≠ 0 →
        (heapCur.set 0 { hdC with links := hdC.links.set i none })[q]? = heapCur[q]? :=
      fun q hq => List.getElem?_set_ne (Ne.symm hq)
    have hheap1hd : (heapCur.set 0 { hdC with links := hdC.links.set i none })[0]? =
        some { hdC with links := hdC.links.set i none } :=
      List.getElem?_set_self h0lt
    have hfirst : hdC.links.getD i none = headerLink s.heap i := by
      rw [hls 0 hd0 hdC hhd0 hhdC i (le_refl i), headerLink, hhd0]
    have hch : ChainSeg (heapCur.set 0 { hdC with links := hdC.links.set i none }) i
        (headerLink s.heap i) (entriesAt L i) none := by
      refine chainSeg_congr ?_ (hr.chains i hilt)
      intro e he m hm
      have hne : e.id ≠ 0 := hr.nz e (List.mem_of_mem_filter he)
      obtain ⟨m', hm', hk', hl'⟩ := hshape e.id m hm
      refine ⟨m', by rw [hheap1at e.id hne]; exact hm', hk', hl', ?_⟩
      exact hls e.id m m' hm hm' i (le_refl i)
    have hnd : ((entriesAt L i).map Entry.id).Nodup :=
      (rep_ids_nodup hr).sublist ((List.filter_sublist _).map _)
    have hflen : (entriesAt L i).length < heapCur.length := by
      rw [hlen]
      exact lt_of_le_of_lt (List.length_filter_le _ _) (rep_length_lt hr)
    obtain ⟨heap2, hrunD, hlenD, huntouched, hpropD⟩ :=
      dropLevel_run (entriesAt L i) (headerLink s.heap i) _ heapCur.length hch hnd hflen
    have h0notin : (0 : Nat) ∉ (entriesAt L i).map Entry.id := by
      rw [List.mem_map]
      rintro ⟨e, he, h0⟩
      exact hr.nz e (List.mem_of_mem_filter he) h0
    have hheap2hd : heap2[0]? = some { hdC with links := hdC.links.set i none } := by
      rw [huntouched 0 h0notin, hheap1hd]
    have shape2 : ∀ (q : Nat) (n : SkipNode K), s.heap[q]? = some n →
        ∃ n', heap2[q]? = some n' ∧ n'.key = n.key ∧ n'.links.length = n.links.length := by
      intro q n hq
      obtain ⟨nC, hnC, hkC2, hlC2⟩ := hshape q n hq
      by_cases h0 : q = 0
      · subst h0
        rw [hnC, Option.some.injEq] at hhdC
        subst hhdC
        obtain ⟨n2, hn2, hk2, hl2, -⟩ := hpropD 0 _ hheap1hd
        refine ⟨n2, hn2, by rw [hk2]; exact hkC2, ?_⟩
        rw [hl2]
        show (nC.links.set i none).length = n.links.length
        rw [List.length_set]
        exact hlC2
      · obtain ⟨n2, hn2, hk2, hl2, -⟩ := hpropD q nC (by rw [hheap1at q h0]; exact hnC)
        exact ⟨n2, hn2, by rw [hk2]; exact hkC2, by rw [hl2]; exact hlC2⟩
    have len2 : heap2.length = s.heap.length := by
      rw [hlenD, List.length_set, hlen]
    have ls2 : ∀ (q : Nat) (n n2 : SkipNode K), s.heap[q]? = some n → heap2[q]? = some n2 →
        ∀ j, i + 1 ≤ j → n2.links.getD j none = n.links.getD j none := by
      intro q n n2 hq hq2 j hj
      obtain ⟨nC, hnC, -, -⟩ := hshape q n hq
      by_cases h0 : q = 0
      · subst h0
        rw [hnC, Option.some.injEq] at hhdC
        subst hhdC
        obtain ⟨n2', hn2', -, -, hj2⟩ := hpropD 0 _ hheap1hd
        rw [hn2', Option.some.injEq] at hq2
        subst hq2
        rw [hj2 j (by omega)]
        show (nC.links.set i none).getD j none = n.links.getD j none
        rw [links_set_getD_ne _ _ (by omega)]
        exact hls 0 n nC hq hnC j (by omega)
      · obtain ⟨n2', hn2', -, -, hj2⟩ := hpropD q nC (by rw [hheap1at q h0]; exact hnC)
        rw [hn2', Option.some.injEq] at hq2
        subst hq2
        rw [hj2 j (by omega)]
        exact hls q n nC hq hnC j (by omega)
    have hdr2 : ∀ j, j < i + 1 → headerLink heap2 j = none := by
      intro j hj
      rw [headerLink, hheap2hd]
      show (hdC.links.set i none).getD j none = none
      by_cases hji : j = i
      · subst hji
        exact links_set_getD_self _ _ (by rw [hlC, hlen0]; exact hilt)
      · rw [links_set_getD_ne _ _ (fun h => hji h.symm)]
        have := hhdr j (by omega)
        rwa [headerLink, hhdC] at this
    obtain ⟨heapF, hrunL, hlenF, hshapeF, hhdF⟩ :=
      ih (i + 1) heap2 (by omega) shape2 len2 ls2 hdr2
    refine ⟨heapF, ?_, hlenF, hshapeF, hhdF⟩
    rw [dropLevels]
    simp only [nodeAt, hhdC, ok_bind]
    rw [← hfirst] at hrunD
    rw [hrunD, ok_bind]
    exact hrunL

theorem clear_spec {K : Type} [LinearOrder K] {s : SkipState K} {L : List (Entry K)}
    (hr : Rep s L) :
    ∃ heapF, s.Clear = Except.ok ({ s with size := 0, heap := heapF } : SkipState K) ∧
      Rep ({ s with size := 0, heap := heapF } : SkipState K) [] := by
  obtain ⟨heapF, hrun, hlenF, hshapeF, hhdF⟩ :=
    dropLevels_run hr s.maxHeight 0 s.heap (by omega)
      (fun q n h => ⟨n, h, rfl, rfl⟩) rfl
      (fun q n n' h h' j _ => by rw [h, Option.some.injEq] at h'; rw [h'])
      (fun j hj => absurd hj (by omega))
  refine ⟨heapF, ?_, ?_⟩
  · rw [SkipState.Clear, hrun]
    rfl
  · obtain ⟨hd0, hhd0, hlen0⟩ := hr.hdr
    obtain ⟨hdF, hhdF2, hkF, hlF⟩ := hshapeF 0 hd0 hhd0
    refine ⟨hr.mh_pos, ⟨hdF, hhdF2, by rw [hlF]; exact hlen0⟩,
      List.Pairwise.nil, nofun, nofun, ?_, rfl⟩
    intro l hl
    show ChainSeg heapF l (headerLink heapF l) (entriesAt [] l) none
    rw [hhdF l hl]
    rfl

/-! ### Reachability: every reachable state realises some abstraction -/

theorem runOp_rep {K : Type} [LinearOrder K] {s s' : SkipState K} {L : List (Entry K)}
    (hr : Rep s L) {op : Op K} (h : runOp s op = Except.ok s') : ∃ L', Rep s' L' := by
  cases op with
  | insert k =>
    by_cases hp : ∃ e ∈ L, e.key = k
    · rw [runOp, insert_dup hr hp] at h
      simp only [Except.map, Except.ok.injEq] at h
      exact ⟨L, h ▸ hr⟩
    · have habs : ∀ e ∈ L, e.key ≠ k := fun e he hk => hp ⟨e, he, hk⟩
      obtain ⟨s₁, hins, -, hrep⟩ := insert_ok hr habs
      rw [runOp, hins] at h
      simp only [Except.map, Except.ok.injEq] at h
      exact ⟨_, h ▸ hrep⟩
  | erase k =>
    by_cases hp : ∃ e ∈ L, e.key = k
    · obtain ⟨te, hte, htek⟩ := hp
      obtain ⟨heapF, hers, hrep⟩ := erase_spec hr hte htek
      rw [runOp, hers] at h
      simp only [Except.map, Except.ok.injEq] at h
      exact ⟨_, h ▸ hrep⟩
    · have habs : ∀ e ∈ L, e.key ≠ k := fun e he hk => hp ⟨e, he, hk⟩
      rw [runOp, erase_miss hr habs] at h
      simp only [Except.map, Except.ok.injEq] at h
      exact ⟨L, h ▸ hr⟩
  | clear =>
    obtain ⟨heapF, hclr, hrep⟩ := clear_spec hr
    rw [runOp, hclr] at h
    rw [Except.ok.injEq] at h
    exact ⟨[], h ▸ hrep⟩

theorem runOps_rep {K : Type} [LinearOrder K] :
    ∀ (ops : List (Op K)) (s s' : SkipState K) (L : List (Entry K)), Rep s L →
      runOps s ops = Except.ok s' → ∃ L', Rep s' L' := by
  intro ops
  induction ops with
  | nil =>
    intro s s' L hr h
    rw [runOps, Except.ok.injEq] at h
    exact ⟨L, h ▸ hr⟩
  | cons op ops ih =>
    intro s s' L hr h
    rw [runOps] at h
    cases hop : runOp s op with
    | error e =>
      rw [hop] at h
      exact absurd h (by simp [Bind.bind, Except.bind])
    | ok s₁ =>
      rw [hop, ok_bind] at h
      obtain ⟨L₁, hr₁⟩ := runOp_rep hr hop
      exact ih s₁ s' L₁ hr₁ h

theorem reachable_rep {K : Type} [LinearOrder K] [Inhabited K] {s : SkipState K}
    (h : Reachable s) : ∃ L, Rep s L := by
  obtain ⟨mh, rng, ops, hm, hrun⟩ := h
  exact runOps_rep ops _ s [] (rep_mkSkipList rng hm) hrun

/-! ### Sequences of inserts, and `delKey` after `insEntry` -/

theorem runInserts_spec {K : Type} [LinearOrder K] :
    ∀ (ks : List K) (s : SkipState K) (L : List (Entry K)), Rep s L →
      ∃ s' L' n, runInserts s ks = Except.ok (s', n) ∧ Rep s' L' ∧
        s'.size = s.size + n ∧
        (∀ e ∈ L, ∃ e' ∈ L', e'.key = e.key) ∧
        (∀ k ∈ ks, ∃ e ∈ L', e.key = k) := by
  intro ks
  induction ks with
  | nil =>
    intro s L hr
    exact ⟨s, L, 0, rfl, hr, by omega, fun e he => ⟨e, he, rfl⟩, nofun⟩
  | cons k ks ih =>
    intro s L hr
    by_cases hp : ∃ e ∈ L, e.key = k
    · obtain ⟨s', L', n, hrun, hr', hsz, hold, hin⟩ := ih s L hr
      refine ⟨s', L', n, ?_, hr', by omega, hold, ?_⟩
      · rw [runInserts, insert_dup hr hp, ok_bind, hrun, ok_bind]
        simp
      · intro k' hk'
        rcases List.mem_cons.mp hk' with rfl | hk'
        · obtain ⟨e, he, hek⟩ := hp
          obtain ⟨e', he', hek'⟩ := hold e he
          exact ⟨e', he', by rw [hek', hek]⟩
        · exact hin k' hk'
    · have habs : ∀ e ∈ L, e.key ≠ k := fun e he hk => hp ⟨e, he, hk⟩
      obtain ⟨s₁, hins, hsz₁, hrep₁⟩ := insert_ok hr habs
      obtain ⟨s', L', n, hrun, hr', hsz, hold, hin⟩ := ih s₁ _ hrep₁
      refine ⟨s', L', n + 1, ?_, hr', by omega, ?_, ?_⟩
      · rw [runInserts, hins, ok_bind, hrun, ok_bind]
        rw [if_pos rfl, Nat.add_comm]
      · intro e he
        exact hold e ((mem_insEntry hr.sorted (fun x hx => habs x hx)).mpr (Or.inl he))
      · intro k' hk'
        rcases List.mem_cons.mp hk' with rfl | hk'
        · exact hold _ ((mem_insEntry hr.sorted (fun x hx => habs x hx)).mpr (Or.inr rfl))
        · exact hin k' hk'

theorem delKey_insEntry {K : Type} [LinearOrder K] {L : List (Entry K)}
    (hs : L.Pairwise fun a b => a.key < b.key) {e : Entry K}
    (habs : ∀ x ∈ L, x.key ≠ e.key) : delKey (insEntry L e) e.key = L := by
  rw [delKey, insEntry, List.filter_append, List.filter_cons]
  rw [if_neg (by simp)]
  have h1 : ((L.filter fun x => decide (x.key < e.key)).filter
      fun x => decide (x.key ≠ e.key)) = L.filter fun x => decide (x.key < e.key) := by
    rw [List.filter_filter]
    apply List.filter_congr
    intro x hx
    by_cases hlt : x.key < e.key
    · simp [hlt, ne_of_lt hlt]
    · simp [hlt]
  have h2 : ((L.filter fun x => decide (e.key < x.key)).filter
      fun x => decide (x.key ≠ e.key)) = L.filter fun x => decide (e.key < x.key) := by
    rw [List.filter_filter]
    apply List.filter_congr
    intro x hx
    by_cases hgt : e.key < x.key
    · simp [hgt, ne_of_gt hgt]
    · simp [hgt]
  rw [h1, h2, ← absent_split hs habs]

theorem map_delKey {K : Type} [LinearOrder K] (key : K) (L : List (Entry K)) :
    (delKey L key).map Entry.key = (L.map Entry.key).filter fun c => decide (c ≠ key) := by
  induction L with
  | nil => rfl
  | cons e L ih =>
    show ((e :: L).filter _).map _ = _
    rw [List.filter_cons, List.map_cons, List.filter_cons]
    by_cases h : e.key ≠ key
    · rw [if_pos (by simpa using h), if_pos (by simpa using h), List.map_cons]
      exact congrArg (List.cons e.key) ih
    · rw [if_neg (by simpa using h), if_neg (by simpa using h)]
      exact ih

/-- A concrete well-formed one-level container over `Int` holding the single
key 5, used to instantiate claims that need a populated state. -/
theorem rep_pair :
    Rep ({ maxHeight := 1, heap := [⟨0, [some 1]⟩, ⟨5, [none]⟩], size := 1, rng := fun _ => 1, rngIdx := 1 } : SkipState Int) [⟨1, 5, 1⟩] := by
  refine ⟨le_refl 1, ⟨⟨0, [some 1]⟩, rfl, rfl⟩, List.pairwise_singleton _ _,
    by decide, by decide, ?_, rfl⟩
  intro l hl
  have hl1 : l < 1 := hl
  have hl0 : l = 0 := by omega
  subst hl0
  exact ⟨rfl, Nat.one_pos, ⟨5, [none]⟩, rfl, rfl, rfl, rfl⟩

/-! ## The claims -/

/-- Claim C1: in every reachable state of the container, the chain obtained by
following forward references from the header is strictly increasing in key
order at every level, and the level-0 chain contains exactly one entry per
live key: a key is reported by `Contains` exactly when it lies on the level-0
chain, that chain has no duplicates, and its length is the live count. -/
theorem claim_C1 {K : Type} [LinearOrder K] [Inhabited K] {s : SkipState K}
    (hreach : Reachable s) :
    (∀ l, (chainKeys s l).Pairwise (· < ·)) ∧
    (∀ key, s.Contains key = Except.ok true ↔ key ∈ chainKeys s 0) ∧
    (chainKeys s 0).Nodup ∧ (chainKeys s 0).length = s.Size := by
  obtain ⟨L, hr⟩ := reachable_rep hreach
  have hck : chainKeys s 0 = L.map Entry.key := by
    rw [chainKeys_eq hr hr.mh_pos, entriesAt_zero (fun e he => (hr.ht_le e he).1)]
  refine ⟨chainKeys_sorted hr, ?_, ?_, ?_⟩
  · intro key
    rw [contains_spec hr key, hck]
    simp only [Except.ok.injEq, decide_eq_true_eq, List.mem_map]
  · rw [hck]
    exact (List.Pairwise.map Entry.key (fun a b h => h) hr.sorted).imp ne_of_lt
  · rw [hck, List.length_map]
    exact hr.sz.symm

/-- Claim C2: inserting a key that is not yet present returns `true`,
increments the live count by one, and makes `Contains` hold; and over any
sequence of inserts with pairwise-distinct keys, the final size is the prior
size plus the number of accepted inserts, and `Contains` holds for every
inserted key. -/
theorem claim_C2 {K : Type} [LinearOrder K] {s : SkipState K} {L : List (Entry K)}
    (hr : Rep s L) :
    (∀ key, (∀ e ∈ L, e.key ≠ key) →
      ∃ s', s.Insert key = Except.ok (true, s') ∧ s'.Size = s.Size + 1 ∧
        s'.Contains key = Except.ok true) ∧
    (∀ ks : List K, ks.Pairwise (· ≠ ·) →
      ∃ s' n, runInserts s ks = Except.ok (s', n) ∧ s'.Size = s.Size + n ∧
        ∀ k ∈ ks, s'.Contains k = Except.ok true) := by
  constructor
  · intro key habs
    obtain ⟨s₁, hins, hsz, hrep⟩ := insert_ok hr habs
    refine ⟨s₁, hins, hsz, ?_⟩
    have hmem : ∃ e ∈ insEntry L (Entry.mk s.heap.length key
        (RandomHeight s.maxHeight s.rng s.rngIdx).1), e.key = key :=
      ⟨_, (mem_insEntry hr.sorted (fun x hx => habs x hx)).mpr (Or.inr rfl), rfl⟩
    rw [contains_spec hrep key, decide_eq_true hmem]
  · intro ks _
    obtain ⟨s', L', n, hrun, hr', hsz, -, hin⟩ := runInserts_spec ks s L hr
    refine ⟨s', n, hrun, hsz, ?_⟩
    intro k hk
    obtain ⟨e, he, hek⟩ := hin k hk
    rw [contains_spec hr' k, decide_eq_true ⟨e, he, hek⟩]

/-- Claim C3: inserting a key that is already present is a no-op returning
`false` — the state (count and structure) is returned unchanged. -/
theorem claim_C3 {K : Type} [LinearOrder K] {s : SkipState K} {L : List (Entry K)}
    (hr : Rep s L) {key : K} (hpres : ∃ e ∈ L, e.key = key) :
    s.Insert key = Except.ok (false, s) :=
  insert_dup hr hpres

/-- Claim C4: erasing a key that is not present is a no-op returning `false` —
the state (count and structure) is returned unchanged. -/
theorem claim_C4 {K : Type} [LinearOrder K] {s : SkipState K} {L : List (Entry K)}
    (hr : Rep s L) {key : K} (habs : ∀ e ∈ L, e.key ≠ key) :
    s.Erase key = Except.ok (false, s) :=
  erase_miss hr habs

/-- Claim C5: `Insert key` followed by `Erase key` succeeds, leaves
`Contains key` false, and leaves the level-0 chain equal to the original
level-0 chain with `key` removed — every other previously-inserted key is
still present and in the same relative order. -/
theorem claim_C5 {K : Type} [LinearOrder K] {s : SkipState K} {L : List (Entry K)}
    (hr : Rep s L) (key : K) :
    ∃ (b : Bool) (s₁ s₂ : SkipState K),
      s.Insert key = Except.ok (b, s₁) ∧ s₁.Erase key = Except.ok (true, s₂) ∧
      s₂.Contains key = Except.ok false ∧
      chainKeys s₂ 0 = (chainKeys s 0).filter (fun c => decide (c ≠ key)) ∧
      ∀ c ∈ chainKeys s 0, c ≠ key → s₂.Contains c = Except.ok true := by
  have hck : chainKeys s 0 = L.map Entry.key := by
    rw [chainKeys_eq hr hr.mh_pos, entriesAt_zero (fun e he => (hr.ht_le e he).1)]
  by_cases hp : ∃ e ∈ L, e.key = key
  · obtain ⟨te, hte, htek⟩ := hp
    obtain ⟨heapF, hers, hrep₂⟩ := erase_spec hr hte htek
    refine ⟨false, s, _, insert_dup hr ⟨te, hte, htek⟩, hers, ?_, ?_, ?_⟩
    · rw [contains_spec hrep₂ key]
      congr 1
      rw [decide_eq_false_iff_not]
      rintro ⟨e, he, hek⟩
      have hne := (List.mem_filter.mp he).2
      rw [decide_eq_true_eq] at hne
      exact hne hek
    · have hck₂ : chainKeys ({ s with heap := heapF, size := s.size - 1 } : SkipState K) 0 =
          (delKey L key).map Entry.key := by
        rw [chainKeys_eq hrep₂ hrep₂.mh_pos,
          entriesAt_zero (fun e he => (hrep₂.ht_le e he).1)]
      rw [hck₂, hck, map_delKey]
    · intro c hc hcne
      rw [hck] at hc
      obtain ⟨e, he, rfl⟩ := List.mem_map.mp hc
      have hex : ∃ x ∈ delKey L key, x.key = e.key :=
        ⟨e, List.mem_filter.mpr ⟨he, by simpa using hcne⟩, rfl⟩
      rw [contains_spec hrep₂ e.key, decide_eq_true hex]
  · have habs : ∀ e ∈ L, e.key ≠ key := fun e he hk => hp ⟨e, he, hk⟩
    obtain ⟨s₁, hins, hsz₁, hrep₁⟩ := insert_ok hr habs
    have hmem : (Entry.mk s.heap.length key (RandomHeight s.maxHeight s.rng s.rngIdx).1) ∈
        insEntry L (Entry.mk s.heap.length key (RandomHeight s.maxHeight s.rng s.rngIdx).1) :=
      (mem_insEntry hr.sorted (fun x hx => habs x hx)).mpr (Or.inr rfl)
    obtain ⟨heapF, hers, hrep₂⟩ := erase_spec hrep₁ hmem
      (show (Entry.mk s.heap.length key
        (RandomHeight s.maxHeight s.rng s.rngIdx).1).key = key from rfl)
    have hdel : delKey (insEntry L (Entry.mk s.heap.length key
        (RandomHeight s.maxHeight s.rng s.rngIdx).1)) key = L :=
      delKey_insEntry hr.sorted (fun x hx => habs x hx)
    rw [hdel] at hrep₂
    refine ⟨true, s₁, _, hins, hers, ?_, ?_, ?_⟩
    · rw [contains_spec hrep₂ key]
      congr 1
      rw [decide_eq_false_iff_not]
      rintro ⟨e, he, hek⟩
      exact habs e he hek
    · have hck₂ : chainKeys ({ s₁ with heap := heapF, size := s₁.size - 1 } : SkipState K) 0 =
          L.map Entry.key := by
        rw [chainKeys_eq hrep₂ hrep₂.mh_pos,
          entriesAt_zero (fun e he => (hrep₂.ht_le e he).1)]
      rw [hck₂, hck]
      symm
      apply List.filter_eq_self.mpr
      intro c hc
      obtain ⟨e, he, rfl⟩ := List.mem_map.mp hc
      simpa using habs e he
    · intro c hc hcne
      rw [hck] at hc
      obtain ⟨e, he, rfl⟩ := List.mem_map.mp hc
      rw [contains_spec hrep₂ e.key, decide_eq_true ⟨e, he, rfl⟩]

/-- Claim C6: `Clear` succeeds on any well-formed state (the iterative,
one-link-at-a-time teardown embedded by `dropLevel`/`dropLevels` terminates
within fuel linear in the arena, with no nested cascade), after which the
size is 0, `Empty` holds, and `Contains` is false for every key. -/
theorem claim_C6 {K : Type} [LinearOrder K] {s : SkipState K} {L : List (Entry K)}
    (hr : Rep s L) :
    ∃ heapF, s.Clear = Except.ok ({ s with size := 0, heap := heapF } : SkipState K) ∧
      SkipState.Size ({ s with size := 0, heap := heapF } : SkipState K) = 0 ∧
      SkipState.Empty ({ s with size := 0, heap := heapF } : SkipState K) = true ∧
      ∀ key, SkipState.Contains ({ s with size := 0, heap := heapF } : SkipState K) key =
        Except.ok false := by
  obtain ⟨heapF, hclr, hrep⟩ := clear_spec hr
  refine ⟨heapF, hclr, rfl, rfl, ?_⟩
  intro key
  rw [contains_spec hrep key]
  simp

/-- Claim C7: the height sampler returns a height in `[1, MaxHeight]`, equal
to one plus the streak of successful 1-in-4 trials drawn from the stream
(capped at `MaxHeight`), and for a fixed stream the produced height and the
next stream position are deterministic. -/
theorem claim_C7 (m : Nat) (rng : Nat → Nat) (idx : Nat) (hm : 1 ≤ m) :
    1 ≤ (RandomHeight m rng idx).1 ∧ (RandomHeight m rng idx).1 ≤ m ∧
    (RandomHeight m rng idx).1 = min m (1 + trialStreak rng idx (m - 1)) ∧
    ∀ rng' : Nat → Nat, (∀ i, rng i = rng' i) →
      RandomHeight m rng idx = RandomHeight m rng' idx := by
  obtain ⟨h1, h2⟩ := randomHeight_bounds m rng idx hm
  refine ⟨h1, h2, randomHeight_spec m rng idx hm, ?_⟩
  intro rng' h
  rw [funext h]

/-- Claim C8: `Next` and `SetNext` fail with the out-of-range fault exactly
when `level ≥ Height()`; below the height, `Next` returns the stored forward
reference and `SetNext` installs the given one — no clamping or wrapping. -/
theorem claim_C8 {K : Type} (n : SkipNode K) (level : Nat) (p : Option Nat) :
    (n.Height ≤ level →
      n.Next level = Except.error ("level " ++ toString level ++ " out of range") ∧
      n.SetNext level p = Except.error ("level " ++ toString level ++ " out of range")) ∧
    (level < n.Height →
      n.Next level = Except.ok (n.links.getD level none) ∧
      n.SetNext level p = Except.ok { n with links := n.links.set level p }) := by
  constructor
  · intro h
    have h' : level ≥ n.links.length := h
    exact ⟨by rw [SkipNode.Next, if_pos h'], by rw [SkipNode.SetNext, if_pos h']⟩
  · intro h
    have h' : ¬ level ≥ n.links.length := not_le.mpr h
    exact ⟨by rw [SkipNode.Next, if_neg h'], by rw [SkipNode.SetNext, if_neg h']⟩

/-- Claim C9, amended: during a successful insert, at each spliced level the
predecessor's forward reference is first pointed at the new node, and then
the new node's forward reference at that level is set to the predecessor's
previous forward reference (the opposite of the claimed order), for every
level from 0 up to the sampled height minus one — the order recorded by
`expectedEvs`. -/
theorem claim_C9 {K : Type} [LinearOrder K] {s : SkipState K} {L : List (Entry K)}
    (hr : Rep s L) {key : K} (habs : ∀ e ∈ L, e.key ≠ key) :
    ∃ s', insertRec s key = Except.ok (true, s',
      expectedEvs (fun l => predIdAt L l key)
        (fun l => linkOf (s.heap ++ [SkipNode.mk key
          (List.replicate (RandomHeight s.maxHeight s.rng s.rngIdx).1 none)])
          (predIdAt L l key) l)
        s.heap.length 0 (RandomHeight s.maxHeight s.rng s.rngIdx).1) := by
  obtain ⟨heapF, h1, -⟩ := insertRec_spec hr habs
  exact ⟨_, h1⟩

/-- Claim C9, counterexample: on a freshly constructed one-level container
over `Int`, inserting the key 5 records the predecessor's installation
before the new node's — the trace equals `expectedEvs` (predecessor first)
and differs from `claimedEvs`, the order asserted by the specification (new
node first). -/
theorem claim_C9_counterexample :
    (∃ s', insertRec (mkSkipList Int 1 (fun _ => 1)) 5 = Except.ok (true, s',
      expectedEvs (fun _ => 0) (fun _ => none) 1 0 1)) ∧
    expectedEvs (fun _ => 0) (fun _ => none) 1 0 1 ≠
      claimedEvs (fun _ => 0) (fun _ => none) 1 0 1 := by
  constructor
  · obtain ⟨heapF, h1, -⟩ := insertRec_spec
      (rep_mkSkipList (fun _ => 1) (le_refl 1))
      (nofun : ∀ e ∈ ([] : List (Entry Int)), e.key ≠ 5)
    have hrh : (RandomHeight 1 (fun _ => (1 : Nat)) 0).1 = 1 := by
      rw [randomHeight_spec 1 (fun _ => 1) 0 (le_refl 1)]
      rfl
    simp only [mkSkipList] at h1
    rw [hrh] at h1
    exact ⟨_, h1⟩
  · decide

/-- Claim C10: in every reachable state, `Contains`, `Insert` and `Erase`
complete without any fault — in particular, no internal `Next`/`SetNext`
call ever raises the out-of-range fault, so that branch is unreachable
through the public operations. -/
theorem claim_C10 {K : Type} [LinearOrder K] [Inhabited K] {s : SkipState K}
    (hreach : Reachable s) (key : K) :
    (∃ b, s.Contains key = Except.ok b) ∧
    (∃ r, s.Insert key = Except.ok r) ∧
    (∃ r, s.Erase key = Except.ok r) := by
  obtain ⟨L, hr⟩ := reachable_rep hreach
  refine ⟨⟨_, contains_spec hr key⟩, ?_, ?_⟩
  · by_cases hp : ∃ e ∈ L, e.key = key
    · exact ⟨_, insert_dup hr hp⟩
    · obtain ⟨s₁, hins, -, -⟩ := insert_ok hr (fun e he hk => hp ⟨e, he, hk⟩)
      exact ⟨_, hins⟩
  · by_cases hp : ∃ e ∈ L, e.key = key
    · obtain ⟨te, hte, htek⟩ := hp
      obtain ⟨heapF, hers, -⟩ := erase_spec hr hte htek
      exact ⟨_, hers⟩
    · exact ⟨_, erase_miss hr (fun e he hk => hp ⟨e, he, hk⟩)⟩

/-! ## Witnesses -/

/-- Witness for C1: the claim applied to a freshly constructed two-level
container over `Int`. -/
theorem claim_C1_witness :
    Reachable (mkSkipList Int 2 (fun _ => 1)) ∧
    ((∀ l, (chainKeys (mkSkipList Int 2 (fun _ => 1)) l).Pairwise (· < ·)) ∧
     (∀ key, (mkSkipList Int 2 (fun _ => 1)).Contains key = Except.ok true ↔
        key ∈ chainKeys (mkSkipList Int 2 (fun _ => 1)) 0) ∧
     (chainKeys (mkSkipList Int 2 (fun _ => 1)) 0).Nodup ∧
     (chainKeys (mkSkipList Int 2 (fun _ => 1)) 0).length =
        (mkSkipList Int 2 (fun _ => 1)).Size) :=
  ⟨⟨2, fun _ => 1, [], by omega, rfl⟩, claim_C1 ⟨2, fun _ => 1, [], by omega, rfl⟩⟩

/-- Witness for C2: the claim applied to a freshly constructed one-level
container over `Int`. -/
theorem claim_C2_witness :
    Rep (mkSkipList Int 1 (fun _ => 1)) [] ∧
    ((∀ key : Int, (∀ e ∈ ([] : List (Entry Int)), e.key ≠ key) →
      ∃ s', (mkSkipList Int 1 (fun _ => 1)).Insert key = Except.ok (true, s') ∧
        s'.Size = (mkSkipList Int 1 (fun _ => 1)).Size + 1 ∧
        s'.Contains key = Except.ok true) ∧
     (∀ ks : List Int, ks.Pairwise (· ≠ ·) →
      ∃ s' n, runInserts (mkSkipList Int 1 (fun _ => 1)) ks = Except.ok (s', n) ∧
        s'.Size = (mkSkipList Int 1 (fun _ => 1)).Size + n ∧
        ∀ k ∈ ks, s'.Contains k = Except.ok true)) :=
  ⟨rep_mkSkipList (fun _ => 1) (le_refl 1),
    claim_C2 (rep_mkSkipList (fun _ => 1) (le_refl 1))⟩

/-- Witness for C3: inserting the already-present key 5 into the concrete
populated container returns `false` and the unchanged state. -/
theorem claim_C3_witness :
    (∃ e ∈ [(⟨1, 5, 1⟩ : Entry Int)], e.key = 5) ∧
    SkipState.Insert ({ maxHeight := 1, heap := [⟨0, [some 1]⟩, ⟨5, [none]⟩], size := 1, rng := fun _ => 1, rngIdx := 1 } : SkipState Int) 5 =
      Except.ok (false, { maxHeight := 1, heap := [⟨0, [some 1]⟩, ⟨5, [none]⟩], size := 1, rng := fun _ => 1, rngIdx := 1 }) :=
  ⟨⟨⟨1, 5, 1⟩, List.mem_singleton_self _, rfl⟩,
    claim_C3 rep_pair ⟨⟨1, 5, 1⟩, List.mem_singleton_self _, rfl⟩⟩

/-- Witness for C4: erasing the absent key 7 from the fresh container returns
`false` and the unchanged state. -/
theorem claim_C4_witness :
    (∀ e ∈ ([] : List (Entry Int)), e.key ≠ 7) ∧
    (mkSkipList Int 1 (fun _ => 1)).Erase 7 =
      Except.ok (false, mkSkipList Int 1 (fun _ => 1)) :=
  ⟨nofun, claim_C4 (rep_mkSkipList (fun _ => 1) (le_refl 1)) nofun⟩

/-- Witness for C5: the claim applied to the fresh container and the key 5. -/
theorem claim_C5_witness :
    Rep (mkSkipList Int 1 (fun _ => 1)) [] ∧
    ∃ (b : Bool) (s₁ s₂ : SkipState Int),
      (mkSkipList Int 1 (fun _ => 1)).Insert 5 = Except.ok (b, s₁) ∧
      s₁.Erase 5 = Except.ok (true, s₂) ∧
      s₂.Contains 5 = Except.ok false ∧
      chainKeys s₂ 0 = (chainKeys (mkSkipList Int 1 (fun _ => 1)) 0).filter
        (fun c => decide (c ≠ 5)) ∧
      ∀ c ∈ chainKeys (mkSkipList Int 1 (fun _ => 1)) 0, c ≠ 5 →
        s₂.Contains c = Except.ok true :=
  ⟨rep_mkSkipList (fun _ => 1) (le_refl 1),
    claim_C5 (rep_mkSkipList (fun _ => 1) (le_refl 1)) 5⟩

/-- Witness for C6: the claim applied to the fresh container. -/
theorem claim_C6_witness :
    Rep (mkSkipList Int 1 (fun _ => 1)) [] ∧
    ∃ heapF, (mkSkipList Int 1 (fun _ => 1)).Clear = Except.ok
        ({ mkSkipList Int 1 (fun _ => 1) with size := 0, heap := heapF } : SkipState Int) ∧
      SkipState.Size ({ mkSkipList Int 1 (fun _ => 1) with size := 0, heap := heapF } : SkipState Int) = 0 ∧
      SkipState.Empty ({ mkSkipList Int 1 (fun _ => 1) with size := 0, heap := heapF } : SkipState Int) = true ∧
      ∀ key, SkipState.Contains ({ mkSkipList Int 1 (fun _ => 1) with size := 0, heap := heapF } : SkipState Int) key = Except.ok false :=
  ⟨rep_mkSkipList (fun _ => 1) (le_refl 1),
    claim_C6 (rep_mkSkipList (fun _ => 1) (le_refl 1))⟩

/-- Witness for C7: the claim applied to `MaxHeight = 4`, the all-zero stream
(every 1-in-4 trial succeeds) and stream position 0. -/
theorem claim_C7_witness :
    1 ≤ 4 ∧
    (1 ≤ (RandomHeight 4 (fun _ => 0) 0).1 ∧ (RandomHeight 4 (fun _ => 0) 0).1 ≤ 4 ∧
     (RandomHeight 4 (fun _ => 0) 0).1 = min 4 (1 + trialStreak (fun _ => 0) 0 (4 - 1)) ∧
     ∀ rng' : Nat → Nat, (∀ i, (fun _ => (0 : Nat)) i = rng' i) →
       RandomHeight 4 (fun _ => 0) 0 = RandomHeight 4 rng' 0) :=
  ⟨by omega, claim_C7 4 (fun _ => 0) 0 (by omega)⟩

/-- Witness for C8: a one-level node over `Int` faults at level 1 and reads
its stored reference at level 0. -/
theorem claim_C8_witness :
    (⟨0, [none]⟩ : SkipNode Int).Next 1 =
      Except.error ("level " ++ toString 1 ++ " out of range") ∧
    (⟨0, [none]⟩ : SkipNode Int).Next 0 = Except.ok none :=
  ⟨((claim_C8 (⟨0, [none]⟩ : SkipNode Int) 1 none).1 (by decide)).1,
    ((claim_C8 (⟨0, [none]⟩ : SkipNode Int) 0 none).2 (by decide)).1⟩

/-- Witness for C9 (amended): the claim applied to the fresh container and
the key 5. -/
theorem claim_C9_witness :
    (∀ e ∈ ([] : List (Entry Int)), e.key ≠ 5) ∧
    ∃ s', insertRec (mkSkipList Int 1 (fun _ => 1)) 5 = Except.ok (true, s',
      expectedEvs (fun l => predIdAt ([] : List (Entry Int)) l 5)
        (fun l => linkOf ((mkSkipList Int 1 (fun _ => 1)).heap ++ [SkipNode.mk 5
          (List.replicate (RandomHeight 1 (fun _ => 1) 0).1 none)])
          (predIdAt ([] : List (Entry Int)) l 5) l)
        (mkSkipList Int 1 (fun _ => 1)).heap.length 0 (RandomHeight 1 (fun _ => 1) 0).1) :=
  ⟨nofun, claim_C9 (rep_mkSkipList (fun _ => 1) (le_refl 1)) nofun⟩

/-- Witness for C10: the claim applied to the fresh container and the key 3. -/
theorem claim_C10_witness :
    Reachable (mkSkipList Int 1 (fun _ => 1)) ∧
    ((∃ b, (mkSkipList Int 1 (fun _ => 1)).Contains 3 = Except.ok b) ∧
     (∃ r, (mkSkipList Int 1 (fun _ => 1)).Insert 3 = Except.ok r) ∧
     (∃ r, (mkSkipList Int 1 (fun _ => 1)).Erase 3 = Except.ok r)) :=
  ⟨⟨1, fun _ => 1, [], le_refl 1, rfl⟩,
    claim_C10 ⟨1, fun _ => 1, [], le_refl 1, rfl⟩ 3⟩

end SkipVerify
